import Mathlib

/-!
# The execution core: tensor addressing, operator kernels, graph rewrites

A shallow embedding of

* `lotus/core/providers/cpu/tensor/utils.h`: `TensorPitches`, `TensorAxisCounters`,
  `SliceSkips` and `SliceIterator`;
* `lotus/core/framework/op_kernel.h`: `OpKernelContext::Input`, `OpKernelContext::Output`
  and the default `OpKernel::ComputeAsync`;
* `onnxruntime/core/graph/identity_elimination.cc`: `EliminateIdentity`;
* `onnxruntime/core/providers/cpu/tensor/unsqueeze.cc`: `UnsqueezeBase::PrepareCompute`;

followed by the properties proved about them.

Modelling conventions

* A `std::vector<int64_t>` / `gsl::span<const int64_t>` is a `List Int`; `v[i]` is
  `v.getD i 0` and `v[i] = x` is `v.set i x`.  All accesses made by the code on inputs
  of rank `R ≥ 1` are in range, so the default value is never observed there.
* `int64_t`, `int` and `size_t` values are mathematical integers: the development
  describes the executions in which no machine integer overflows.  The one conversion
  that is meant to wrap, `for (size_t axis : axes_)` in `unsqueeze.cc`, is taken modulo
  `2^64` (`toSizeT`).
* A tensor is represented by the dimension list of its shape; a pointer into its data is
  the flat offset from `tensor.Data<T>()`.
* In `++indices_[--axis] == extents_[axis]` the left operand is evaluated first, so that
  the right operand reads the decremented `axis`.
* A raised failure (`LOTUS_ENFORCE`, `ORT_ENFORCE`, `assert`) and an execution without
  defined behaviour (`InputDefs()[0]` on a node without input def, `*begin++` at the end)
  are the result `none`.
* The classes `Node`, `Graph`, `GraphEditor`, `ExecutionFrame` and `Status` are not among
  the sources; they are modelled from their description in the specification.
-/

namespace Lotus

/-! ## TensorShape -/

/-- Modelled from the spec: `TensorShape::Size()`, whose definition is not part of the
sources at hand; "total element count = product of shape dimensions". -/
def TensorShape.Size (dims : List Int) : Int := dims.prod

/-! ## TensorPitches -/

/-- The loop `for (size_t i = size() - 1; i-- > 0;) p[i] = p[i + 1] * dims[i + 1];`.
The first argument is the value of `i` before the test `i-- > 0`. -/
def TensorPitches.loop (dims : List Int) : Nat → List Int → List Int
  | 0, p => p
  | i + 1, p => TensorPitches.loop dims i (p.set i (p.getD (i + 1) 0 * dims.getD (i + 1) 0))

/-- The constructor `TensorPitches(const Tensor &tensor)`: a vector of
`NumDimensions()` zeros, `back() = 1`, then the loop. -/
def TensorPitches (dims : List Int) : List Int :=
  let p := List.replicate dims.length (0 : Int)
  let p := p.set (p.length - 1) 1
  TensorPitches.loop dims (p.length - 1) p

/-! ## TensorAxisCounters -/

/-- The state of a `TensorAxisCounters`: `dims` stands for `tensor_` (only its shape is
read), the other fields are the private members. -/
structure TensorAxisCounters where
  dims : List Int
  running : Bool
  axis : Nat
  indices : List Int
deriving DecidableEq

/-- The constructor `TensorAxisCounters(const Tensor &tensor)`; `running_` starts as
`true` (its default member initialiser) and is cleared when `Shape().Size() == 0`. -/
def TensorAxisCounters.construct (dims : List Int) : TensorAxisCounters :=
  let indices := List.replicate (dims.length - 1) (0 : Int)
  let axis := indices.length
  if TensorShape.Size dims = 0 then
    { dims := dims, running := false, axis := axis, indices := indices }
  else
    { dims := dims, running := true, axis := axis, indices := indices }

/-- The method `bool Increment()`: the returned pair is the result and the new state. -/
def TensorAxisCounters.Increment (c : TensorAxisCounters) : Bool × TensorAxisCounters :=
  if c.axis = 0 then
    (false, { c with running := false })
  else
    let axis := c.axis - 1
    let indices := c.indices.set axis (c.indices.getD axis 0 + 1)
    if indices.getD axis 0 ≠ c.dims.getD axis 0 then
      (false, { c with axis := indices.length, indices := indices })
    else
      (true, { c with axis := axis, indices := indices.set axis 0 })

/-- The accessor `size_t Axis() const`. -/
def TensorAxisCounters.Axis (c : TensorAxisCounters) : Nat := c.axis

/-- The conversion `operator bool() const`. -/
def TensorAxisCounters.toBool (c : TensorAxisCounters) : Bool := c.running

/-- The statement `while (counters.Increment()) {}` with a bound on the number of
calls; `none` when the bound is reached before `Increment` returns `false`. -/
def TensorAxisCounters.carryLoop : Nat → TensorAxisCounters → Option TensorAxisCounters
  | 0, _ => none
  | fuel + 1, c =>
    match c.Increment with
    | (true, c1) => TensorAxisCounters.carryLoop fuel c1
    | (false, c1) => some c1

/-- The driving loop `while (counters) { visit(indices); while (counters.Increment()) {} }`
with a bound on the number of iterations; the result is the list of index tuples
passed to `visit`, in order, or `none` when the bound is reached first. -/
def TensorAxisCounters.drive : Nat → TensorAxisCounters → Option (List (List Int))
  | 0, _ => none
  | fuel + 1, c =>
    if c.toBool then
      match TensorAxisCounters.carryLoop (fuel + 1) c with
      | none => none
      | some c1 =>
        match TensorAxisCounters.drive fuel c1 with
        | none => none
        | some vs => some (c.indices :: vs)
    else some []

/-! ## SliceSkips -/

/-- Modelled from the spec: the macro `LOTUS_ENFORCE`, whose definition is not part of
the sources at hand; a violated condition "fails fast (irrecoverable precondition
failure)".  `none` stands for the raised failure. -/
def LOTUS_ENFORCE (cond : Bool) : Option Unit :=
  if cond then some () else none

/-- The loop of the `SliceSkips` constructor,
`for (size_t i = size() - 1; i-- > 0;) { prevPitch = pitch; pitch *= dims[i];
s[i] = pitch - prevPitch * extents[i]; }`.
The first argument is the value of `i` before the test `i-- > 0`. -/
def SliceSkips.loop (dims extents : List Int) : Nat → Int → List Int → List Int
  | 0, _, s => s
  | i + 1, pitch, s =>
    let prevPitch := pitch
    let pitch := pitch * dims.getD i 0
    SliceSkips.loop dims extents i pitch (s.set i (pitch - prevPitch * extents.getD i 0))

/-- The constructor `SliceSkips(const Tensor &tensor, gsl::span<const int64_t> extents)`. -/
def SliceSkips (dims extents : List Int) : Option (List Int) :=
  let s := List.replicate dims.length (0 : Int)
  match LOTUS_ENFORCE (decide (dims.length = extents.length)) with
  | none => none
  | some _ =>
    let pitch := dims.getD (dims.length - 1) 0
    let s := s.set (s.length - 1) (pitch - extents.getD (s.length - 1) 0)
    some (SliceSkips.loop dims extents (s.length - 1) pitch s)

/-! ## SliceIterator -/

/-- The state of a `SliceIterator<T>`: `dims` stands for `tensor_`, `input` is the
distance of `input_` from `tensor_.Data<T>()`, the other fields are the private
members. -/
structure SliceIterator where
  dims : List Int
  input : Int
  extents : List Int
  inner_counter : Int
  inner_extent : Int
  skips : List Int
  indices : List Int
deriving DecidableEq

/-- The loop of the `SliceIterator` constructor,
`for (size_t i = dims.size(); i-- > 0;) { input_ += pitch * starts[i]; pitch *= dims[i]; }`.
The first argument is the value of `i` before the test `i-- > 0`. -/
def SliceIterator.initLoop (dims starts : List Int) : Nat → Int → Int → Int
  | 0, _, input => input
  | i + 1, pitch, input =>
    SliceIterator.initLoop dims starts i (pitch * dims.getD i 0) (input + pitch * starts.getD i 0)

/-- The constructor `SliceIterator(const Tensor &tensor, starts, extents)`.  The member
`skips_` is built first (its own check may already raise), then the body runs. -/
def SliceIterator.construct (dims starts extents : List Int) : Option SliceIterator :=
  match SliceSkips dims extents with
  | none => none
  | some skips =>
    let indices := List.replicate extents.length (0 : Int)
    match LOTUS_ENFORCE
        (decide (dims.length = starts.length) && decide (dims.length = extents.length)) with
    | none => none
    | some _ =>
      let input := SliceIterator.initLoop dims starts dims.length 1 0
      some { dims := dims, input := input, extents := extents, inner_counter := 0,
             inner_extent := extents.getD (dims.length - 1) 0, skips := skips,
             indices := indices }

/-- The loop of `AdvanceOverInnerExtent`,
`while (axis && ++indices_[--axis] == extents_[axis]) { indices_[axis] = 0;
input_ += skips_[axis]; }`.  The first argument is `axis` at the loop test; the result
is the pair of `indices_` and `input_` at loop exit. -/
def SliceIterator.advanceLoop (extents skips : List Int) : Nat → List Int → Int → List Int × Int
  | 0, indices, input => (indices, input)
  | axis + 1, indices, input =>
    let indices := indices.set axis (indices.getD axis 0 + 1)
    if indices.getD axis 0 = extents.getD axis 0 then
      SliceIterator.advanceLoop extents skips axis (indices.set axis 0) (input + skips.getD axis 0)
    else (indices, input)

/-- The method `void AdvanceOverInnerExtent()`. -/
def SliceIterator.AdvanceOverInnerExtent (it : SliceIterator) : SliceIterator :=
  let axis := it.skips.length - 1
  let input := it.input + it.skips.getD axis 0
  let r := SliceIterator.advanceLoop it.extents it.skips axis it.indices input
  { it with input := r.2, indices := r.1 }

/-- The post-increment `const T *operator++(int)`: the returned pair is the returned
pointer (as a flat offset) and the new state. -/
def SliceIterator.postIncrement (it : SliceIterator) : Int × SliceIterator :=
  let input := it.input
  let it := { it with input := it.input + 1, inner_counter := it.inner_counter + 1 }
  if it.inner_counter = it.inner_extent then
    (input, ({ it with inner_counter := 0 }).AdvanceOverInnerExtent)
  else (input, it)

/-- The loop `for (size_t i = 0; i < inner_extent_; i++) *output++ = *input_++;` of
`CopyInnermostAxis`: the first argument is the number of iterations left, `data` is the
content of the tensor buffer by flat offset, `output` the elements written so far. -/
def SliceIterator.copyLoop {T : Type} (data : Int → T) : Nat → Int → List T → Int × List T
  | 0, input, output => (input, output)
  | n + 1, input, output => SliceIterator.copyLoop data n (input + 1) (output ++ [data input])

/-- The method `T *CopyInnermostAxis(T *output)`: the returned pair is the elements
written through `output` (the returned pointer stands right behind them) and the new
state. -/
def SliceIterator.CopyInnermostAxis {T : Type} (data : Int → T) (it : SliceIterator)
    (output : List T) : List T × SliceIterator :=
  let r := SliceIterator.copyLoop data it.inner_extent.toNat it.input output
  (r.2, ({ it with input := r.1 }).AdvanceOverInnerExtent)

/-- The pointers returned by `n` successive calls of `operator++(int)`, in order, and the
state they leave. -/
def SliceIterator.advance : Nat → SliceIterator → List Int × SliceIterator
  | 0, it => ([], it)
  | n + 1, it =>
    let r := it.postIncrement
    let rs := SliceIterator.advance n r.2
    (r.1 :: rs.1, rs.2)

/-- The states a `SliceIterator` goes through after its construction: any sequence of
calls of `operator++(int)` and `CopyInnermostAxis`. -/
inductive SliceIterator.Reachable (it0 : SliceIterator) : SliceIterator → Prop
  | start : SliceIterator.Reachable it0 it0
  | increment (it : SliceIterator) :
      SliceIterator.Reachable it0 it → SliceIterator.Reachable it0 it.postIncrement.2
  | copy {T : Type} (data : Int → T) (output : List T) (it : SliceIterator) :
      SliceIterator.Reachable it0 it →
      SliceIterator.Reachable it0 (it.CopyInnermostAxis data output).2

/-- The result of `n` successive calls of `CopyInnermostAxis`, each continuing the output
of the one before: the elements written and the state the calls leave. -/
def SliceIterator.copyRuns {T : Type} (data : Int → T) :
    Nat → SliceIterator → List T → List T × SliceIterator
  | 0, it, output => (output, it)
  | n + 1, it, output =>
    let r := it.CopyInnermostAxis data output
    SliceIterator.copyRuns data n r.2 r.1

/-- The states a `TensorAxisCounters` goes through after its construction: any number of
calls of `Increment`. -/
inductive TensorAxisCounters.Reachable (c0 : TensorAxisCounters) : TensorAxisCounters → Prop
  | start : TensorAxisCounters.Reachable c0 c0
  | increment (c : TensorAxisCounters) :
      TensorAxisCounters.Reachable c0 c → TensorAxisCounters.Reachable c0 c.Increment.2

/-! ## Row-major enumeration -/

/-- All index tuples `(k_0, ..., k_{R-1})` with `0 ≤ k_i < extents_i`, in lexicographic
(row-major) order. -/
def tuples : List Int → List (List Int)
  | [] => [[]]
  | e :: es => (List.range e.toNat).flatMap (fun k => (tuples es).map (fun t => (k : Int) :: t))

/-- The sum `Σ_i k_i * p_i` of two vectors of the same length. -/
def dot : List Int → List Int → Int
  | k :: ks, p :: ps => k * p + dot ks ps
  | _, _ => 0

/-- The flat offset `Σ_i (start_i + k_i) * pitch_i` of the element at position `k` of the
slice that begins at `starts`. -/
def sliceOffset (dims starts k : List Int) : Int :=
  dot (List.zipWith (fun s x => s + x) starts k) (TensorPitches dims)

end Lotus

namespace common

/-! ## Status -/

/-- Modelled from the spec: the codes of a `Status`, whose class is not part of the sources
at hand; "a status indicating success or a typed failure". -/
inductive StatusCode where
  | OK
  | FAIL
  | INVALID_ARGUMENT
  | NOT_IMPLEMENTED
deriving DecidableEq

/-- The message of a `Status`: empty, or one of the two messages of
`UnsqueezeBase::PrepareCompute`, "'axes' has an out of range axis" and "'axes' has a
duplicate axis". -/
inductive StatusMessage where
  | empty
  | axes_out_of_range
  | axes_duplicate
deriving DecidableEq

/-- Modelled from the spec: the class `Status`, a code together with a message. -/
structure Status where
  code : StatusCode
  message : StatusMessage
deriving DecidableEq

/-- The value of `Status::OK()`. -/
def Status.OK : Status := ⟨StatusCode.OK, StatusMessage.empty⟩

/-- The method `Status::IsOK()`. -/
def Status.IsOK (s : Status) : Bool := decide (s.code = StatusCode.OK)

end common

namespace Lotus

/-! ## OpKernel and OpKernelContext -/

/-- Modelled from the spec: the class `ExecutionFrame`, which is not part of the sources
at hand; "per-run external storage mapping slot indices to live tensor/value storage".
`values slot` is what the frame holds at a slot for the requested type, `none` where the
frame itself fails (no such slot, or a value of another type). -/
structure ExecutionFrame (V : Type) where
  values : Int → Option V

/-- Modelled from the spec: `ExecutionFrame::GetValue<T>(slot)`. -/
def ExecutionFrame.GetValue {V : Type} (frame : ExecutionFrame V) (slot : Int) : Option V :=
  frame.values slot

/-- Modelled from the spec: `ExecutionFrame::GetMutableValue<T>(slot)`. -/
def ExecutionFrame.GetMutableValue {V : Type} (frame : ExecutionFrame V) (slot : Int) :
    Option V :=
  frame.values slot

/-- The state of an `OpKernelContext`: the frame behind `execution_frame_`, the value of
`kernel_->Node().InputDefs().size()`, and `arg_start_index_`. -/
structure OpKernelContext (V : Type) where
  execution_frame : ExecutionFrame V
  num_inputs : Nat
  arg_start_index : Int

/-- The slot `arg_start_index_ + index` that `Input<T>(index)` passes to the frame. -/
def OpKernelContext.input_arg_index {V : Type} (ctx : OpKernelContext V) (index : Int) : Int :=
  ctx.arg_start_index + index

/-- The local `output_arg_index` of `Output<T>(index)`,
`arg_start_index_ + static_cast<int>(kernel_->Node().InputDefs().size()) + index`. -/
def OpKernelContext.output_arg_index {V : Type} (ctx : OpKernelContext V) (index : Int) :
    Int :=
  ctx.arg_start_index + (ctx.num_inputs : Int) + index

/-- The method `const T* OpKernelContext::Input<T>(int index) const`. -/
def OpKernelContext.Input {V : Type} (ctx : OpKernelContext V) (index : Int) : Option V :=
  ctx.execution_frame.GetValue (ctx.input_arg_index index)

/-- The method `T* OpKernelContext::Output<T>(int index)` (the non-tensor case). -/
def OpKernelContext.Output {V : Type} (ctx : OpKernelContext V) (index : Int) : Option V :=
  ctx.execution_frame.GetMutableValue (ctx.output_arg_index index)

/-- How a call of `Compute` or `ComputeAsync` ends: it returns a status, or it ends in the
"not implemented" failure. -/
inductive ComputeOutcome where
  | returned (status : common.Status)
  | not_implemented
deriving DecidableEq

/-- Modelled from the spec: the macro `LOTUS_NOT_IMPLEMENTED`, whose definition is not part
of the sources at hand; "default behavior is "not implemented" failure". -/
def LOTUS_NOT_IMPLEMENTED : ComputeOutcome := ComputeOutcome.not_implemented

/-- The default `virtual Status OpKernel::ComputeAsync(OpKernelContext* context,
DoneCallback done) const`.  The callback acts on the state `world` of the program; the
result is how the call ends and the state it leaves. -/
def OpKernel.ComputeAsync {V W : Type} (_context : OpKernelContext V) (_done : W → W)
    (world : W) : ComputeOutcome × W :=
  (LOTUS_NOT_IMPLEMENTED, world)

end Lotus

namespace onnxruntime

/-! ## Graph, Node and GraphEditor -/

/-- A `NodeArg*`: defs are compared by identity, so a def is represented by a number. -/
abbrev NodeArg := Nat

/-- A `NodeIndex`, the value of `Node::Index()`. -/
abbrev NodeIndex := Nat

/-- Modelled from the spec: the class `Node` of `core/graph/graph.h`, which is not part of
the sources at hand; "declared input/output argument definitions (each an ordered, named,
typed slot reference)" and the edges iterated by `OutputNodesBegin/End`, here the list of
the indices of the consumers. -/
structure Node where
  input_defs : List NodeArg
  output_defs : List NodeArg
  output_nodes : List NodeIndex
deriving DecidableEq

/-- Modelled from the spec: the class `Graph` behind a `GraphEditor`, which is not part
of the sources at hand.  The node table is indexed by `Node::Index()`, a released slot is
`none`; `inputs` are the graph inputs and initializers, `outputs` the graph outputs. -/
structure Graph where
  nodes : List (Option Node)
  inputs : List NodeArg
  outputs : List NodeArg
deriving DecidableEq

/-- The node with a given index, if the graph has one. -/
def Graph.node? (g : Graph) (index : NodeIndex) : Option Node :=
  g.nodes.getD index none

/-- Modelled from the spec: `Node::ReplaceDefs(replacement_defs)`, which is not part of the
sources at hand; "a def-substitution map applied to each consumer's input list".  The map
is the list of its key/value pairs. -/
def Node.ReplaceDefs (node : Node) (replacement_defs : List (NodeArg × NodeArg)) : Node :=
  { node with
    input_defs := node.input_defs.map (fun d => (replacement_defs.lookup d).getD d) }

/-- The effect on the graph of `const_cast<Node*>(*it)->ReplaceDefs(replacement_defs)` for
the node `*it` with index `it`. -/
def Graph.ReplaceDefsAt (g : Graph) (it : NodeIndex)
    (replacement_defs : List (NodeArg × NodeArg)) : Graph :=
  match g.node? it with
  | none => g
  | some node => { g with nodes := g.nodes.set it (some (node.ReplaceDefs replacement_defs)) }

/-- Modelled from the spec: `GraphEditor::RemoveNode(index)`, which is not part of the
sources at hand; it "removes the now-unreferenced node from the graph".  The returned
pair is whether a node was removed and the new graph. -/
def GraphEditor.RemoveNode (g : Graph) (index : NodeIndex) : Bool × Graph :=
  match g.node? index with
  | none => (false, g)
  | some _ => (true, { g with nodes := g.nodes.set index none })

/-- The loop `for (auto it = node->OutputNodesBegin(); it != node->OutputNodesEnd(); it++)
{ (*it)->ReplaceDefs(replacement_defs); *modified = true; }` of
`EliminateIdentity::Apply`: the first argument is the rest of the range, the result the
graph and `*modified` at loop exit. -/
def EliminateIdentity.applyLoop (replacement_defs : List (NodeArg × NodeArg)) :
    List NodeIndex → Graph → Bool → Graph × Bool
  | [], g, modified => (g, modified)
  | it :: rest, g, _ =>
    EliminateIdentity.applyLoop replacement_defs rest (g.ReplaceDefsAt it replacement_defs) true

/-- The method `Status EliminateIdentity::Apply(GraphEditor*, Node* node, bool* modified)`.
`node` is given by its index in the graph behind the editor, `modified` is `*modified` on
entry; the result is the returned status, the graph and `*modified` on return.  The
result is `none` where the C++ code has no defined behaviour: `node` is not a node of the
graph, or it has no input def or no output def to read with `[0]`. -/
def EliminateIdentity.Apply (g : Graph) (node : NodeIndex) (modified : Bool) :
    Option (common.Status × Graph × Bool) :=
  match g.node? node with
  | none => none
  | some n =>
    match n.input_defs, n.output_defs with
    | id_input :: _, id_output :: _ =>
      let replacement_defs := [(id_output, id_input)]
      let r := EliminateIdentity.applyLoop replacement_defs n.output_nodes g modified
      let r2 := GraphEditor.RemoveNode r.1 node
      some (common.Status.OK, r2.2, r.2)
    | _, _ => none

/-- The method `bool EliminateIdentity::SatisfyCondition(const Node& node)`. -/
def EliminateIdentity.SatisfyCondition (_node : Node) : Bool := true

/-! ## Properties of graphs used to state the rewrite's contract -/

/-- Every def has at most one producer, and a def produced by a node is not a graph
input. -/
def Graph.SingleAssignment (g : Graph) : Prop :=
  (∀ p, p < g.nodes.length → ∀ q, q < g.nodes.length →
    ∀ P ∈ g.node? p, ∀ Q ∈ g.node? q, ∀ d ∈ P.output_defs, d ∈ Q.output_defs → p = q)
  ∧ (∀ p, p < g.nodes.length → ∀ P ∈ g.node? p, ∀ d ∈ P.output_defs, d ∉ g.inputs)

/-- Each node that lists a def among its inputs is an output node of the def's
producer. -/
def Graph.ConsumersLinked (g : Graph) : Prop :=
  ∀ c, c < g.nodes.length → ∀ p, p < g.nodes.length →
    ∀ C ∈ g.node? c, ∀ P ∈ g.node? p, ∀ d ∈ C.input_defs, d ∈ P.output_defs →
      c ∈ P.output_nodes

/-- A well-formed graph: defs have a single producer and consumers are linked to it. -/
def Graph.WellFormed (g : Graph) : Prop := g.SingleAssignment ∧ g.ConsumersLinked

/-- A def is available in a graph: it is a graph input or initializer, or a node of the
graph produces it. -/
def Graph.Available (g : Graph) (d : NodeArg) : Prop :=
  d ∈ g.inputs ∨ ∃ p, p < g.nodes.length ∧ ∃ P ∈ g.node? p, d ∈ P.output_defs

/-- A valid graph: every def consumed by a node or listed as a graph output is
available. -/
def Graph.Valid (g : Graph) : Prop :=
  (∀ c, c < g.nodes.length → ∀ C ∈ g.node? c, ∀ d ∈ C.input_defs, g.Available d)
  ∧ (∀ d ∈ g.outputs, g.Available d)

/-- An acyclic graph: the defs can be ranked so that every node's outputs rank above its
inputs. -/
def Graph.Acyclic (g : Graph) : Prop :=
  ∃ rank : NodeArg → Nat, ∀ p, p < g.nodes.length →
    ∀ P ∈ g.node? p, ∀ i ∈ P.input_defs, ∀ o ∈ P.output_defs, rank i < rank o

/-- The values `val` of the defs are a computation of the graph under the interpretation
`interp` of the nodes (by index: the operator of a node maps the list of its input values
to the list of its output values) for the graph-input values `inp`. -/
def Graph.Computes {V : Type} (g : Graph) (interp : NodeIndex → List V → List V)
    (inp : NodeArg → V) (val : NodeArg → V) : Prop :=
  (∀ d ∈ g.inputs, val d = inp d)
  ∧ ∀ p, ∀ P ∈ g.node? p, P.output_defs.map val = interp p (P.input_defs.map val)

instance Graph.decidableSingleAssignment (g : Graph) : Decidable g.SingleAssignment := by
  unfold Graph.SingleAssignment; infer_instance

instance Graph.decidableConsumersLinked (g : Graph) : Decidable g.ConsumersLinked := by
  unfold Graph.ConsumersLinked; infer_instance

instance Graph.decidableWellFormed (g : Graph) : Decidable g.WellFormed := by
  unfold Graph.WellFormed; infer_instance

instance Graph.decidableAvailable (g : Graph) (d : NodeArg) : Decidable (g.Available d) := by
  unfold Graph.Available; infer_instance

instance Graph.decidableValid (g : Graph) : Decidable g.Valid := by
  unfold Graph.Valid; infer_instance

/-! ## Unsqueeze -/

/-- The conversion of an `int64_t` to `size_t`, as in `for (size_t axis : axes_)`. -/
def toSizeT (a : Int) : Nat := (a % 2 ^ 64).toNat

/-- The loop `for (size_t axis : axes_) { ... }` of `UnsqueezeBase::PrepareCompute`: the
first argument is the rest of `axes_`, the second `output_dims`; the result is the
returned error status or `output_dims` at loop exit. -/
def UnsqueezeBase.axesLoop : List Int → List Int → common.Status ⊕ List Int
  | [], output_dims => Sum.inr output_dims
  | a :: rest, output_dims =>
    let axis := toSizeT a
    if axis ≥ output_dims.length then
      Sum.inl ⟨common.StatusCode.INVALID_ARGUMENT, common.StatusMessage.axes_out_of_range⟩
    else if output_dims.getD axis 0 ≠ 0 then
      Sum.inl ⟨common.StatusCode.INVALID_ARGUMENT, common.StatusMessage.axes_duplicate⟩
    else UnsqueezeBase.axesLoop rest (output_dims.set axis 1)

/-- The loop `for (auto& axisSize : output_dims) { if (axisSize == 0) axisSize = *begin++; }`
of `UnsqueezeBase::PrepareCompute`: the first argument is the rest of `output_dims`, the
second the input dimensions from `begin` on; the result is the filled rest of
`output_dims` and the input dimensions from `begin` on at loop exit, or `none` when
`*begin` is read at the end of the input dimensions. -/
def UnsqueezeBase.fillLoop : List Int → List Int → Option (List Int × List Int)
  | [], begin => some ([], begin)
  | axisSize :: rest, begin =>
    if axisSize = 0 then
      match begin with
      | [] => none
      | d :: begin' =>
        match UnsqueezeBase.fillLoop rest begin' with
        | none => none
        | some r => some (d :: r.1, r.2)
    else
      match UnsqueezeBase.fillLoop rest begin with
      | none => none
      | some r => some (axisSize :: r.1, r.2)

/-- The method `Status UnsqueezeBase::PrepareCompute(OpKernelContext* ctx, Prepare& p)`.
`axes_` is the `axes` attribute, `X` the shape of the tensor `ctx->Input<Tensor>(0)`
(`none` for a null pointer).  The result is the returned status together with the shape
passed to `ctx->Output(0, output_shape)`, if the output is requested; it is `none` when
`ORT_ENFORCE(X != nullptr)` raises, when the fill loop reads past the input dimensions,
or when the `assert` fails. -/
def UnsqueezeBase.PrepareCompute (axes_ : List Int) (X : Option (List Int)) :
    Option (common.Status × Option (List Int)) :=
  match X with
  | none => none
  | some input_dims =>
    let output_dims := List.replicate (axes_.length + input_dims.length) (0 : Int)
    match UnsqueezeBase.axesLoop axes_ output_dims with
    | Sum.inl status => some (status, none)
    | Sum.inr output_dims =>
      match UnsqueezeBase.fillLoop output_dims input_dims with
      | none => none
      | some r =>
        if r.2 = [] then some (common.Status.OK, some r.1) else none

end onnxruntime

namespace Lotus

/-! ## Closed form of the pitch vector -/

theorem TensorPitches_loop_length (dims : List Int) (i : Nat) (p : List Int) :
    (TensorPitches.loop dims i p).length = p.length := by
  induction i generalizing p with
  | zero => rfl
  | succ i ih => simp [TensorPitches.loop, ih]

theorem TensorPitches_loop_getD_ge (dims : List Int) (i : Nat) (p : List Int) (j : Nat)
    (hj : i ≤ j) : (TensorPitches.loop dims i p).getD j 0 = p.getD j 0 := by
  induction i generalizing p with
  | zero => rfl
  | succ i ih =>
    simp only [TensorPitches.loop]
    rw [ih _ (by omega)]
    simp only [List.getD_eq_getElem?_getD]
    rw [List.getElem?_set_ne (by omega)]

theorem TensorPitches_loop_getD_lt (dims : List Int) (i : Nat) (p : List Int)
    (hi : i < p.length) (j : Nat) (hj : j < i) :
    (TensorPitches.loop dims i p).getD j 0
      = (TensorPitches.loop dims i p).getD (j + 1) 0 * dims.getD (j + 1) 0 := by
  induction i generalizing p with
  | zero => omega
  | succ i ih =>
    simp only [TensorPitches.loop]
    rcases Nat.lt_succ_iff_lt_or_eq.mp hj with h | h
    · exact ih _ (by simp; omega) h
    · subst h
      rw [TensorPitches_loop_getD_ge _ _ _ j le_rfl,
        TensorPitches_loop_getD_ge _ _ _ (j + 1) (by omega)]
      simp only [List.getD_eq_getElem?_getD]
      rw [List.getElem?_set_self (by omega), List.getElem?_set_ne (by omega)]
      simp

theorem TensorPitches_length (dims : List Int) :
    (TensorPitches dims).length = dims.length := by
  simp [TensorPitches, TensorPitches_loop_length]

theorem TensorPitches_getD_last (dims : List Int) (hR : 1 ≤ dims.length) :
    (TensorPitches dims).getD (dims.length - 1) 0 = 1 := by
  simp only [TensorPitches, List.length_set, List.length_replicate]
  rw [TensorPitches_loop_getD_ge _ _ _ _ le_rfl]
  simp only [List.getD_eq_getElem?_getD]
  rw [List.getElem?_set_self (by simp; omega)]
  rfl

theorem TensorPitches_getD_step (dims : List Int) (i : Nat) (hi : i + 1 < dims.length) :
    (TensorPitches dims).getD i 0
      = (TensorPitches dims).getD (i + 1) 0 * dims.getD (i + 1) 0 := by
  simp only [TensorPitches, List.length_set, List.length_replicate]
  exact TensorPitches_loop_getD_lt _ _ _ (by simp; omega) i (by omega)

theorem TensorPitches_getD (dims : List Int) (i : Nat) (hi : i < dims.length) :
    (TensorPitches dims).getD i 0 = (dims.drop (i + 1)).prod := by
  obtain ⟨k, hk⟩ : ∃ k, i + 1 + k = dims.length := ⟨dims.length - (i + 1), by omega⟩
  induction k generalizing i with
  | zero =>
    have h1 : i = dims.length - 1 := by omega
    rw [h1, TensorPitches_getD_last dims (by omega), List.drop_of_length_le (by omega)]
    rfl
  | succ k ih =>
    rw [TensorPitches_getD_step dims i (by omega), ih (i + 1) (by omega) (by omega)]
    have h2 : dims.drop (i + 1) = dims.getD (i + 1) 0 :: dims.drop (i + 1 + 1) := by
      rw [List.getD_eq_getElem _ _ (by omega)]
      exact List.drop_eq_getElem_cons (by omega)
    rw [h2, List.prod_cons, mul_comm]

theorem TensorPitches_eq (dims : List Int) :
    TensorPitches dims = (List.range dims.length).map (fun i => (dims.drop (i + 1)).prod) := by
  apply List.ext_getElem
  · simp [TensorPitches_length]
  · intro i h1 h2
    have hi : i < dims.length := by simpa [TensorPitches_length] using h1
    have := TensorPitches_getD dims i hi
    rw [List.getD_eq_getElem _ _ h1] at this
    simp [this]

theorem TensorPitches_cons (d : Int) (ds : List Int) :
    TensorPitches (d :: ds) = ds.prod :: TensorPitches ds := by
  rw [TensorPitches_eq, List.length_cons, List.range_succ_eq_map, TensorPitches_eq]
  simp only [List.map_cons, List.map_map, List.drop_succ_cons, List.drop_zero]
  rfl

/-- C3: for every shape of rank `R ≥ 1` the vector built by `TensorPitches` has length
`R`, its last entry is `1`, every other entry is the next entry times the next dimension
size, shape `(2,3,4,5)` gives `(60,20,5,1)`, and the result does not depend on the
outermost dimension size. -/
theorem TensorPitches_recurrence (dims : List Int) (hR : 1 ≤ dims.length) :
    (TensorPitches dims).length = dims.length
    ∧ (TensorPitches dims).getD (dims.length - 1) 0 = 1
    ∧ (∀ i, i + 1 < dims.length →
        (TensorPitches dims).getD i 0
          = (TensorPitches dims).getD (i + 1) 0 * dims.getD (i + 1) 0)
    ∧ TensorPitches [2, 3, 4, 5] = [60, 20, 5, 1]
    ∧ (∀ d0 d0' : Int, ∀ rest : List Int,
        TensorPitches (d0 :: rest) = TensorPitches (d0' :: rest)) :=
  ⟨TensorPitches_length dims, TensorPitches_getD_last dims hR,
    fun i hi => TensorPitches_getD_step dims i hi, by decide,
    fun d0 d0' rest => by rw [TensorPitches_cons, TensorPitches_cons]⟩

/-- Witness for C3 at shape `(2,3,4)`. -/
theorem TensorPitches_recurrence_witness :
    1 ≤ [(2 : Int), 3, 4].length
    ∧ ((TensorPitches [2, 3, 4]).length = [(2 : Int), 3, 4].length
      ∧ (TensorPitches [2, 3, 4]).getD ([(2 : Int), 3, 4].length - 1) 0 = 1
      ∧ (∀ i, i + 1 < [(2 : Int), 3, 4].length →
          (TensorPitches [2, 3, 4]).getD i 0
            = (TensorPitches [2, 3, 4]).getD (i + 1) 0 * [(2 : Int), 3, 4].getD (i + 1) 0)
      ∧ TensorPitches [2, 3, 4, 5] = [60, 20, 5, 1]
      ∧ (∀ d0 d0' : Int, ∀ rest : List Int,
          TensorPitches (d0 :: rest) = TensorPitches (d0' :: rest))) :=
  ⟨by decide, TensorPitches_recurrence [2, 3, 4] (by decide)⟩

/-! ## Flat offsets and the row-major enumeration -/

theorem range_flatMap_mul (a b : Nat) :
    (List.range a).flatMap (fun k => (List.range b).map (fun n => k * b + n))
      = List.range (a * b) := by
  induction a with
  | zero => simp
  | succ a ih =>
    rw [List.range_succ, List.flatMap_append, ih, Nat.succ_mul, List.range_add]
    simp

theorem prod_nonneg_of_forall (dims : List Int) (h : ∀ d ∈ dims, 0 ≤ d) : 0 ≤ dims.prod := by
  induction dims with
  | nil => simp
  | cons d ds ih =>
    rw [List.prod_cons]
    exact mul_nonneg (h d (by simp)) (ih (fun x hx => h x (by simp [hx])))

theorem tuples_map_dot (dims : List Int) (h : ∀ d ∈ dims, 0 ≤ d) :
    (tuples dims).map (fun t => dot t (TensorPitches dims))
      = (List.range dims.prod.toNat).map (fun n : Nat => (n : Int)) := by
  induction dims with
  | nil => simp [tuples, dot, List.range_succ]
  | cons d ds ih =>
    have hd : 0 ≤ d := h d (by simp)
    have hds : ∀ x ∈ ds, 0 ≤ x := fun x hx => h x (by simp [hx])
    have hP : 0 ≤ ds.prod := prod_nonneg_of_forall ds hds
    have ih1 := ih hds
    have e1 : (d :: ds).prod.toNat = d.toNat * ds.prod.toNat := by
      rw [List.prod_cons]
      obtain ⟨a, rfl⟩ := Int.eq_ofNat_of_zero_le hd
      obtain ⟨b, hb⟩ := Int.eq_ofNat_of_zero_le hP
      rw [hb, ← Int.ofNat_mul]
      rfl
    rw [e1, ← range_flatMap_mul, tuples, TensorPitches_cons, List.map_flatMap, List.map_flatMap]
    congr 1
    funext k
    simp only [List.map_map]
    have e2 : ((fun t => dot t (ds.prod :: TensorPitches ds)) ∘ fun t => (k : Int) :: t)
        = (fun n : Int => (k : Int) * ds.prod + n) ∘ (fun t => dot t (TensorPitches ds)) := by
      funext t
      simp [dot]
    rw [e2, ← List.map_map, ih1, List.map_map]
    apply List.map_congr_left
    intro n _
    simp only [Function.comp]
    rw [Int.ofNat_add, Int.ofNat_mul, Int.toNat_of_nonneg hP]

theorem tuples_length (dims : List Int) (h : ∀ d ∈ dims, 0 ≤ d) :
    (tuples dims).length = dims.prod.toNat := by
  have := congrArg List.length (tuples_map_dot dims h)
  simpa using this

theorem tuples_getElem_dot (dims : List Int) (h : ∀ d ∈ dims, 0 ≤ d) (n : Nat)
    (hn : n < (tuples dims).length) :
    dot ((tuples dims)[n]) (TensorPitches dims) = (n : Int) := by
  have h1 := congrArg (fun l => l[n]?) (tuples_map_dot dims h)
  have hn2 : n < dims.prod.toNat := by rw [← tuples_length dims h]; exact hn
  simp only [List.getElem?_map, List.getElem?_eq_getElem hn, Option.map_some',
    List.getElem?_eq_getElem (show n < (List.range dims.prod.toNat).length by simpa using hn2),
    List.getElem_range] at h1
  exact Option.some.inj h1

theorem tuples_nodup (dims : List Int) (h : ∀ d ∈ dims, 0 ≤ d) : (tuples dims).Nodup := by
  apply List.Nodup.of_map (fun t => dot t (TensorPitches dims))
  rw [tuples_map_dot dims h]
  exact (List.nodup_range _).map (fun a b hab => Int.ofNat.inj hab)

theorem mem_tuples (idx dims : List Int)
    (h : List.Forall₂ (fun i d => 0 ≤ i ∧ i < d) idx dims) : idx ∈ tuples dims := by
  induction h with
  | nil => simp [tuples]
  | @cons i d is ds hid _ ih =>
    simp only [tuples, List.mem_flatMap, List.mem_range, List.mem_map]
    refine ⟨i.toNat, ?_, is, ih, ?_⟩
    · omega
    · rw [Int.toNat_of_nonneg hid.1]

theorem forall₂_of_mem_tuples (idx dims : List Int) (h : idx ∈ tuples dims) :
    List.Forall₂ (fun i d => 0 ≤ i ∧ i < d) idx dims := by
  induction dims generalizing idx with
  | nil =>
    simp only [tuples, List.mem_singleton] at h
    subst h
    exact List.Forall₂.nil
  | cons d ds ih =>
    simp only [tuples, List.mem_flatMap, List.mem_range, List.mem_map] at h
    obtain ⟨k, hk, t, ht, rfl⟩ := h
    exact List.Forall₂.cons ⟨by omega, by omega⟩ (ih t ht)

theorem tuples_getElem?_dot (dims idx : List Int) (h : ∀ d ∈ dims, 0 ≤ d)
    (hidx : List.Forall₂ (fun i d => 0 ≤ i ∧ i < d) idx dims) :
    0 ≤ dot idx (TensorPitches dims) ∧ dot idx (TensorPitches dims) < dims.prod
    ∧ (tuples dims)[(dot idx (TensorPitches dims)).toNat]? = some idx := by
  obtain ⟨n, hn, hidx2⟩ := List.mem_iff_getElem.mp (mem_tuples idx dims hidx)
  have h1 := tuples_getElem_dot dims h n hn
  rw [hidx2] at h1
  have h2 : n < dims.prod.toNat := by rw [← tuples_length dims h]; exact hn
  refine ⟨by omega, by omega, ?_⟩
  rw [h1, Int.toNat_ofNat, List.getElem?_eq_getElem hn, hidx2]

/-- C4: for a shape of rank `R ≥ 1` with all dimension sizes `≥ 1` and an in-range
multi-index, the sum `Σ i_k * pitch_k` is the position of the multi-index in the
lexicographic enumeration of all in-range multi-indices (the multi-index stands at that
position and at no other); it lies in `[0, Π dim_k)` and two in-range multi-indices with
the same flat offset are equal. -/
theorem flat_offset_is_row_major_rank (dims idx : List Int) (hR : 1 ≤ dims.length)
    (hd : ∀ d ∈ dims, 1 ≤ d)
    (hidx : List.Forall₂ (fun i d => 0 ≤ i ∧ i < d) idx dims) :
    (∀ m : Nat, (tuples dims)[m]? = some idx ↔ m = (dot idx (TensorPitches dims)).toNat)
    ∧ 0 ≤ dot idx (TensorPitches dims) ∧ dot idx (TensorPitches dims) < dims.prod
    ∧ ∀ idx' : List Int, List.Forall₂ (fun i d => 0 ≤ i ∧ i < d) idx' dims →
        dot idx' (TensorPitches dims) = dot idx (TensorPitches dims) → idx' = idx := by
  have _hR := hR
  have h0 : ∀ d ∈ dims, 0 ≤ d := fun d hd1 => le_trans (by decide) (hd d hd1)
  obtain ⟨h1, h2, h3⟩ := tuples_getElem?_dot dims idx h0 hidx
  refine ⟨fun m => ⟨fun hm => ?_, fun hm => hm ▸ h3⟩, h1, h2, ?_⟩
  · obtain ⟨hlt, heq⟩ := List.getElem?_eq_some_iff.mp hm
    have := tuples_getElem_dot dims h0 m hlt
    rw [heq] at this
    rw [this, Int.toNat_ofNat]
  · intro idx' hidx' he
    obtain ⟨_, _, h3'⟩ := tuples_getElem?_dot dims idx' h0 hidx'
    rw [he, h3] at h3'
    exact (Option.some.inj h3').symm

/-- Witness for C4 at shape `(2,3,4)` and multi-index `(1,2,3)`. -/
theorem flat_offset_is_row_major_rank_witness :
    (tuples [2, 3, 4])[(dot [1, 2, 3] (TensorPitches [2, 3, 4])).toNat]? = some [1, 2, 3]
    ∧ dot [1, 2, 3] (TensorPitches [2, 3, 4]) = 23 :=
  ⟨(flat_offset_is_row_major_rank [2, 3, 4] [1, 2, 3] (by decide) (by decide)
      (List.Forall₂.cons (by decide) (List.Forall₂.cons (by decide)
        (List.Forall₂.cons (by decide) List.Forall₂.nil)))).1
      (dot [1, 2, 3] (TensorPitches [2, 3, 4])).toNat |>.mpr rfl, by decide⟩

/-! ## Closed form of the skip vector -/

theorem drop_prod_eq (dims : List Int) (i : Nat) (hi : i < dims.length) :
    (dims.drop i).prod = dims.getD i 0 * (dims.drop (i + 1)).prod := by
  rw [List.getD_eq_getElem _ _ hi, ← List.prod_cons, ← List.drop_eq_getElem_cons hi]

theorem SliceSkips_loop_length (dims extents : List Int) (i : Nat) (pitch : Int)
    (s : List Int) : (SliceSkips.loop dims extents i pitch s).length = s.length := by
  induction i generalizing pitch s with
  | zero => rfl
  | succ i ih => simp [SliceSkips.loop, ih]

theorem SliceSkips_loop_getD_ge (dims extents : List Int) (i : Nat) (pitch : Int)
    (s : List Int) (j : Nat) (hj : i ≤ j) :
    (SliceSkips.loop dims extents i pitch s).getD j 0 = s.getD j 0 := by
  induction i generalizing pitch s with
  | zero => rfl
  | succ i ih =>
    simp only [SliceSkips.loop]
    rw [ih _ _ (by omega)]
    simp only [List.getD_eq_getElem?_getD]
    rw [List.getElem?_set_ne (by omega)]

theorem SliceSkips_loop_getD_lt (dims extents : List Int) (i : Nat) (pitch : Int)
    (s : List Int) (hi : i ≤ dims.length) (his : i ≤ s.length)
    (hp : pitch = (dims.drop i).prod) (j : Nat) (hj : j < i) :
    (SliceSkips.loop dims extents i pitch s).getD j 0
      = (dims.getD j 0 - extents.getD j 0) * (dims.drop (j + 1)).prod := by
  induction i generalizing pitch s with
  | zero => omega
  | succ i ih =>
    simp only [SliceSkips.loop]
    have hp2 : pitch * dims.getD i 0 = (dims.drop i).prod := by
      rw [drop_prod_eq dims i (by omega), hp, mul_comm]
    rcases Nat.lt_succ_iff_lt_or_eq.mp hj with h | h
    · exact ih _ _ (by omega) (by simp; omega) hp2 h
    · subst h
      rw [SliceSkips_loop_getD_ge _ _ _ _ _ j le_rfl]
      simp only [List.getD_eq_getElem?_getD]
      rw [List.getElem?_set_self (by omega)]
      simp only [Option.getD_some, ← List.getD_eq_getElem?_getD]
      rw [hp]
      ring

theorem SliceSkips_eq_some (dims extents : List Int) (hlen : extents.length = dims.length) :
    SliceSkips dims extents
      = some (SliceSkips.loop dims extents (dims.length - 1) (dims.getD (dims.length - 1) 0)
          ((List.replicate dims.length (0 : Int)).set (dims.length - 1)
            (dims.getD (dims.length - 1) 0 - extents.getD (dims.length - 1) 0))) := by
  simp [SliceSkips, LOTUS_ENFORCE, hlen]

theorem SliceSkips_eq_none (dims extents : List Int) (hlen : extents.length ≠ dims.length) :
    SliceSkips dims extents = none := by
  have : ¬ dims.length = extents.length := fun h => hlen h.symm
  simp [SliceSkips, LOTUS_ENFORCE, this]

theorem SliceSkips_getD (dims extents s : List Int) (hs : SliceSkips dims extents = some s)
    (i : Nat) (hi : i < dims.length) :
    s.getD i 0 = (dims.getD i 0 - extents.getD i 0) * (dims.drop (i + 1)).prod := by
  have hlen : extents.length = dims.length := by
    by_contra h
    rw [SliceSkips_eq_none dims extents h] at hs
    exact Option.noConfusion hs
  rw [SliceSkips_eq_some dims extents hlen] at hs
  have hs' := (Option.some.inj hs).symm
  subst hs'
  rcases Nat.lt_or_ge i (dims.length - 1) with h | h
  · refine SliceSkips_loop_getD_lt _ _ _ _ _ (by omega) (by simp) ?_ i h
    rw [drop_prod_eq dims (dims.length - 1) (by omega), List.drop_of_length_le (by omega)]
    simp
  · have hi2 : i = dims.length - 1 := by omega
    rw [SliceSkips_loop_getD_ge _ _ _ _ _ i h]
    simp only [List.getD_eq_getElem?_getD]
    rw [← hi2, List.getElem?_set_self (by simp; omega), List.drop_of_length_le (by omega)]
    simp

theorem SliceSkips_length (dims extents s : List Int) (hs : SliceSkips dims extents = some s) :
    s.length = dims.length := by
  have hlen : extents.length = dims.length := by
    by_contra h
    rw [SliceSkips_eq_none dims extents h] at hs
    exact Option.noConfusion hs
  rw [SliceSkips_eq_some dims extents hlen] at hs
  have hs' := (Option.some.inj hs).symm
  subst hs'
  simp [SliceSkips_loop_length]

theorem dot_append (a b c d : List Int) (h : a.length = b.length) :
    dot (a ++ c) (b ++ d) = dot a b + dot c d := by
  induction a generalizing b with
  | nil =>
    cases b with
    | nil => simp [dot]
    | cons y b => simp at h
  | cons x a ih =>
    cases b with
    | nil => simp at h
    | cons y b =>
      have e1 : dot (x :: a ++ c) (y :: b ++ d) = x * y + dot (a ++ c) (b ++ d) := rfl
      have e2 : dot (x :: a) (y :: b) = x * y + dot a b := rfl
      rw [e1, e2, ih b (by simpa using h)]
      ring

theorem dot_take_succ (a b : List Int) (i : Nat) (ha : i < a.length) (hb : i < b.length) :
    dot (a.take (i + 1)) (b.take (i + 1))
      = dot (a.take i) (b.take i) + a.getD i 0 * b.getD i 0 := by
  rw [List.take_succ, List.take_succ, List.getElem?_eq_getElem ha, List.getElem?_eq_getElem hb,
    List.getD_eq_getElem _ _ ha, List.getD_eq_getElem _ _ hb]
  simp only [Option.toList]
  rw [dot_append _ _ _ _ (by simp; omega)]
  simp [dot]

theorem SliceIterator_initLoop_eq (dims starts : List Int) (i : Nat) (pitch input : Int)
    (hi : i ≤ dims.length) (hs : starts.length = dims.length)
    (hp : pitch = (dims.drop i).prod) :
    SliceIterator.initLoop dims starts i pitch input
      = input + dot (starts.take i) ((TensorPitches dims).take i) := by
  induction i generalizing pitch input with
  | zero => simp [SliceIterator.initLoop, dot]
  | succ i ih =>
    simp only [SliceIterator.initLoop]
    rw [ih _ _ (by omega) (by rw [drop_prod_eq dims i (by omega), hp, mul_comm]),
      dot_take_succ _ _ i (by omega) (by rw [TensorPitches_length]; omega),
      TensorPitches_getD dims i (by omega), hp]
    ring

theorem SliceIterator_construct_eq_some (dims starts extents : List Int)
    (hs : starts.length = dims.length) (he : extents.length = dims.length) :
    ∃ skips, SliceSkips dims extents = some skips ∧
      SliceIterator.construct dims starts extents
        = some { dims := dims, input := dot starts (TensorPitches dims), extents := extents,
                 inner_counter := 0, inner_extent := extents.getD (dims.length - 1) 0,
                 skips := skips, indices := List.replicate dims.length 0 } := by
  refine ⟨_, SliceSkips_eq_some dims extents he, ?_⟩
  have h := SliceIterator_initLoop_eq dims starts dims.length 1 0 le_rfl hs
    (by rw [List.drop_of_length_le le_rfl]; rfl)
  rw [List.take_of_length_le (by omega),
    List.take_of_length_le (by rw [TensorPitches_length]), zero_add] at h
  simp only [SliceIterator.construct, SliceSkips_eq_some dims extents he, LOTUS_ENFORCE, hs, he,
    h, decide_True, Bool.and_self, if_true]

theorem SliceIterator_construct_eq_none_iff (dims starts extents : List Int) :
    SliceIterator.construct dims starts extents = none
      ↔ (starts.length ≠ dims.length ∨ extents.length ≠ dims.length) := by
  constructor
  · intro h
    by_contra hc
    push_neg at hc
    obtain ⟨_, _, h2⟩ := SliceIterator_construct_eq_some dims starts extents hc.1 hc.2
    rw [h2] at h
    exact Option.noConfusion h
  · intro h
    by_cases he : extents.length = dims.length
    · have hs : ¬ dims.length = starts.length := fun h1 => (h.resolve_right (by simp [he])) h1.symm
      simp [SliceIterator.construct, SliceSkips_eq_some dims extents he, LOTUS_ENFORCE, hs]
    · simp [SliceIterator.construct, SliceSkips_eq_none dims extents he]

/-- C10: for a tensor of rank `R ≥ 1`, constructing a `SliceIterator` raises exactly when
`starts.size() != R` or `extents.size() != R`, and constructing a `SliceSkips` raises
exactly when `extents.size() != R`; whenever a construction succeeds the vectors have
length `R`. -/
theorem construct_fails_iff_rank_mismatch (dims starts extents : List Int)
    (hR : 1 ≤ dims.length) :
    (SliceIterator.construct dims starts extents = none
        ↔ (starts.length ≠ dims.length ∨ extents.length ≠ dims.length))
    ∧ (SliceSkips dims extents = none ↔ extents.length ≠ dims.length)
    ∧ (∀ it, SliceIterator.construct dims starts extents = some it →
        starts.length = dims.length ∧ extents.length = dims.length) := by
  have _hR := hR
  refine ⟨SliceIterator_construct_eq_none_iff dims starts extents, ⟨fun h => ?_, fun h => ?_⟩, ?_⟩
  · intro he
    rw [SliceSkips_eq_some dims extents he] at h
    exact Option.noConfusion h
  · exact SliceSkips_eq_none dims extents h
  · intro it hit
    by_contra hc
    have : starts.length ≠ dims.length ∨ extents.length ≠ dims.length := by
      by_contra h2
      push_neg at h2
      exact hc h2
    rw [(SliceIterator_construct_eq_none_iff dims starts extents).mpr this] at hit
    exact Option.noConfusion hit

/-- Witness for C10: with shape `(2,3,4)` a two-entry `starts` is rejected. -/
theorem construct_fails_iff_rank_mismatch_witness :
    SliceIterator.construct [2, 3, 4] [1, 1] [1, 2, 2] = none :=
  (construct_fails_iff_rank_mismatch [2, 3, 4] [1, 1] [1, 2, 2] (by decide)).1.mpr
    (Or.inl (by decide))

/-! ## TensorAxisCounters on an empty tensor -/

/-- C6: for a shape of rank `R ≥ 1` with a dimension size `0` in any position, a freshly
constructed `TensorAxisCounters` is not running, and the driving loop returns at once
without a single visit. -/
theorem TensorAxisCounters_zero_dim_not_running (dims : List Int) (hR : 1 ≤ dims.length)
    (hz : (0 : Int) ∈ dims) :
    (TensorAxisCounters.construct dims).toBool = false
    ∧ ∀ fuel, TensorAxisCounters.drive (fuel + 1) (TensorAxisCounters.construct dims)
        = some [] := by
  have _hR := hR
  have h0 : TensorShape.Size dims = 0 := List.prod_eq_zero hz
  have h1 : (TensorAxisCounters.construct dims).toBool = false := by
    simp [TensorAxisCounters.construct, TensorAxisCounters.toBool, h0]
  refine ⟨h1, fun fuel => ?_⟩
  simp [TensorAxisCounters.drive, h1]

/-- Witness for C6 at shape `(2,3,0)`, whose zero is on the untracked innermost axis. -/
theorem TensorAxisCounters_zero_dim_not_running_witness :
    (TensorAxisCounters.construct [2, 3, 0]).toBool = false
    ∧ ∀ fuel, TensorAxisCounters.drive (fuel + 1) (TensorAxisCounters.construct [2, 3, 0])
        = some [] :=
  TensorAxisCounters_zero_dim_not_running [2, 3, 0] (by decide) (by decide)

/-! ## Single advances and the bulk copy of an innermost run -/

theorem advance_add (a b : Nat) (it : SliceIterator) :
    SliceIterator.advance (a + b) it
      = ((SliceIterator.advance a it).1 ++ (SliceIterator.advance b (SliceIterator.advance a it).2).1,
         (SliceIterator.advance b (SliceIterator.advance a it).2).2) := by
  induction a generalizing it with
  | zero => simp [SliceIterator.advance]
  | succ a ih =>
    rw [Nat.succ_add]
    simp only [SliceIterator.advance]
    rw [ih]
    simp

theorem advance_within_run (k : Nat) (it : SliceIterator)
    (h : it.inner_counter + k < it.inner_extent) :
    SliceIterator.advance k it
      = ((List.range k).map (fun j : Nat => it.input + j),
         { it with input := it.input + k, inner_counter := it.inner_counter + k }) := by
  induction k generalizing it with
  | zero => simp [SliceIterator.advance]
  | succ k ih =>
    have hne : ¬ it.inner_counter + 1 = it.inner_extent := by push_cast at h; omega
    simp only [SliceIterator.advance, SliceIterator.postIncrement, hne, if_false]
    rw [ih _ (by push_cast at h; simp only []; omega)]
    simp only [List.range_succ_eq_map, List.map_cons, List.map_map]
    refine Prod.ext ?_ ?_
    · simp only [Nat.cast_zero, add_zero, List.cons.injEq, true_and]
      apply List.map_congr_left
      intro j _
      simp only [Function.comp, Nat.succ_eq_add_one, Nat.cast_add, Nat.cast_one]
      ring
    · simp only [Nat.cast_add, Nat.cast_one]
      congr 1 <;> ring

theorem advance_full_run (m : Nat) (it : SliceIterator) (hc : it.inner_counter = 0)
    (he : it.inner_extent = (m : Int) + 1) :
    SliceIterator.advance (m + 1) it
      = ((List.range (m + 1)).map (fun j : Nat => it.input + j),
         ({ it with input := it.input + ((m : Int) + 1) }).AdvanceOverInnerExtent) := by
  rw [advance_add, advance_within_run m it (by rw [hc, he]; omega)]
  simp only [SliceIterator.advance, SliceIterator.postIncrement, hc, he, zero_add, if_true,
    List.range_succ, List.map_append, List.map_cons, List.map_nil]
  refine Prod.ext rfl ?_
  simp only []
  congr 1
  cases it
  simp only [SliceIterator.mk.injEq, true_and, and_true] at hc ⊢
  ring

theorem copyLoop_eq {T : Type} (data : Int → T) (k : Nat) (input : Int) (output : List T) :
    SliceIterator.copyLoop data k input output
      = (input + k, output ++ (List.range k).map (fun j : Nat => data (input + j))) := by
  induction k generalizing input output with
  | zero => simp [SliceIterator.copyLoop]
  | succ k ih =>
    simp only [SliceIterator.copyLoop]
    rw [ih]
    refine Prod.ext (by simp only [Nat.cast_add, Nat.cast_one]; ring) ?_
    simp only [List.range_succ_eq_map, List.map_cons, List.map_map, List.append_assoc,
      List.singleton_append, Nat.cast_zero, add_zero, List.append_cancel_left_eq,
      List.cons.injEq, true_and]
    apply List.map_congr_left
    intro j _
    simp only [Function.comp, Nat.succ_eq_add_one, Nat.cast_add, Nat.cast_one]
    congr 1
    ring

theorem CopyInnermostAxis_eq_advance {T : Type} (data : Int → T)
    (it : SliceIterator) (output : List T) (hc : it.inner_counter = 0)
    (he : 1 ≤ it.inner_extent) :
    it.CopyInnermostAxis data output
      = (output ++ (SliceIterator.advance it.inner_extent.toNat it).1.map data,
         (SliceIterator.advance it.inner_extent.toNat it).2)
    ∧ (it.CopyInnermostAxis data output).2.inner_counter = 0
    ∧ (SliceIterator.advance it.inner_extent.toNat it).1.length = it.inner_extent.toNat := by
  obtain ⟨m, hm⟩ : ∃ m : Nat, it.inner_extent = (m : Int) + 1 :=
    ⟨(it.inner_extent - 1).toNat, by omega⟩
  have hn : it.inner_extent.toNat = m + 1 := by omega
  rw [hn, advance_full_run m it hc hm]
  simp only [SliceIterator.CopyInnermostAxis, hn, copyLoop_eq, List.map_map, List.length_map,
    List.length_range, and_true]
  refine ⟨Prod.ext rfl ?_, ?_⟩
  · simp only [Nat.cast_add, Nat.cast_one]
  · simp only [SliceIterator.AdvanceOverInnerExtent, hc]

theorem Reachable_inner_extent (it0 it : SliceIterator)
    (h : SliceIterator.Reachable it0 it) : it.inner_extent = it0.inner_extent := by
  induction h with
  | start => rfl
  | increment it _ ih =>
    rw [← ih]
    simp only [SliceIterator.postIncrement]
    split <;> rfl
  | copy data output it _ ih =>
    rw [← ih]
    rfl

/-- C2: for a tensor of rank `R ≥ 1` and valid starts/extents, whenever the iterator
stands at the start of an innermost run (inner counter `0`) after any sequence of calls,
one call of `CopyInnermostAxis` appends to the output exactly the elements behind the
`extent[R-1]` pointers that `extent[R-1]` successive post-increments return, in the same
order, and leaves the iterator in the very state those single advances leave (same
offset, same indices), with the inner counter `0`. -/
theorem CopyInnermostAxis_agrees_with_advances {T : Type} (data : Int → T)
    (dims starts extents : List Int) (it0 it : SliceIterator) (output : List T)
    (hR : 1 ≤ dims.length) (hs : starts.length = dims.length)
    (he : extents.length = dims.length)
    (hv : ∀ i, i < dims.length →
      1 ≤ extents.getD i 0 ∧ starts.getD i 0 + extents.getD i 0 ≤ dims.getD i 0)
    (h0 : SliceIterator.construct dims starts extents = some it0)
    (hreach : SliceIterator.Reachable it0 it) (hc : it.inner_counter = 0) :
    it.CopyInnermostAxis data output
      = (output ++ (SliceIterator.advance (extents.getD (dims.length - 1) 0).toNat it).1.map data,
         (SliceIterator.advance (extents.getD (dims.length - 1) 0).toNat it).2)
    ∧ (it.CopyInnermostAxis data output).2.inner_counter = 0
    ∧ (SliceIterator.advance (extents.getD (dims.length - 1) 0).toNat it).1.length
        = (extents.getD (dims.length - 1) 0).toNat := by
  obtain ⟨_, _, hcon⟩ := SliceIterator_construct_eq_some dims starts extents hs he
  rw [hcon] at h0
  have hie : it.inner_extent = extents.getD (dims.length - 1) 0 := by
    rw [Reachable_inner_extent it0 it hreach, ← Option.some.inj h0]
  have h1 : 1 ≤ it.inner_extent := by
    rw [hie]
    exact (hv (dims.length - 1) (by omega)).1
  have := CopyInnermostAxis_eq_advance data it output hc h1
  rw [hie] at this
  exact this

/-- Witness for C2 at shape `(2,3,4)`, starts `(1,1,1)`, extents `(1,2,2)`, on the freshly
constructed iterator. -/
theorem CopyInnermostAxis_agrees_with_advances_witness :
    (SliceIterator.mk [2, 3, 4] 17 [1, 2, 2] 0 2 [12, 4, 2] [0, 0, 0]).CopyInnermostAxis
        (fun x : Int => x) []
      = ([17, 18], SliceIterator.mk [2, 3, 4] 21 [1, 2, 2] 0 2 [12, 4, 2] [0, 1, 0]) :=
  (CopyInnermostAxis_agrees_with_advances (fun x : Int => x) [2, 3, 4] [1, 1, 1] [1, 2, 2]
    (SliceIterator.mk [2, 3, 4] 17 [1, 2, 2] 0 2 [12, 4, 2] [0, 0, 0])
    (SliceIterator.mk [2, 3, 4] 17 [1, 2, 2] 0 2 [12, 4, 2] [0, 0, 0]) []
    (by decide) (by decide) (by decide) (by decide) (by decide)
    SliceIterator.Reachable.start rfl).1.trans (by decide)

/-! ## The slice iterator enumerates the slice in row-major order -/

theorem getD_append_cons (pre : List Int) (x : Int) (suf : List Int) :
    (pre ++ x :: suf).getD pre.length 0 = x := by
  rw [List.getD_append_right _ _ _ _ le_rfl]
  simp

theorem set_append_cons (pre : List Int) (x : Int) (suf : List Int) (y : Int) :
    (pre ++ x :: suf).set pre.length y = pre ++ y :: suf := by
  rw [List.set_append]
  simp

theorem advanceLoop_succ_at (pe ps pi : List Int) (e sk k : Int) (es ss is : List Int)
    (input : Int) (h1 : pe.length = pi.length) (h2 : ps.length = pi.length) :
    SliceIterator.advanceLoop (pe ++ e :: es) (ps ++ sk :: ss) (pi.length + 1)
        (pi ++ k :: is) input
      = if k + 1 = e then
          SliceIterator.advanceLoop (pe ++ e :: es) (ps ++ sk :: ss) pi.length
            (pi ++ 0 :: is) (input + sk)
        else (pi ++ (k + 1) :: is, input) := by
  simp only [SliceIterator.advanceLoop]
  rw [getD_append_cons, set_append_cons, getD_append_cons, set_append_cons]
  rw [← h1, getD_append_cons, h1, ← h2, getD_append_cons]

theorem ext_getD (a b : List Int) (hlen : a.length = b.length)
    (h : ∀ i, i < a.length → a.getD i 0 = b.getD i 0) : a = b := by
  apply List.ext_getElem hlen
  intro i h1 h2
  have := h i h1
  rwa [List.getD_eq_getElem _ _ h1, List.getD_eq_getElem _ _ h2] at this

theorem SliceSkips_cons (d e : Int) (ds es ss : List Int) (hs : SliceSkips ds es = some ss) :
    SliceSkips (d :: ds) (e :: es) = some ((d - e) * ds.prod :: ss) := by
  have hlen : es.length = ds.length := by
    by_contra h
    rw [SliceSkips_eq_none ds es h] at hs
    exact Option.noConfusion hs
  have h1 := SliceSkips_eq_some (d :: ds) (e :: es) (by simp [hlen])
  rw [h1]
  congr 1
  have hl := SliceSkips_length _ _ _ h1
  have hl' := SliceSkips_length _ _ _ hs
  apply ext_getD
  · rw [hl]; simp [hl']
  · intro i hi
    rw [SliceSkips_getD _ _ _ h1 i (by rw [← hl]; exact hi)]
    cases i with
    | zero => simp
    | succ j =>
      have hj : j < ds.length := by rw [hl] at hi; simpa using hi
      simp only [List.getD_cons_succ, List.drop_succ_cons]
      rw [SliceSkips_getD _ _ _ hs j hj]

theorem SliceSkips_singleton (d e : Int) : SliceSkips [d] [e] = some [d - e] := by
  simp [SliceSkips, LOTUS_ENFORCE, SliceSkips.loop]

theorem advance_block (D : List Int) (ie : Int) (es : List Int) :
    ∀ (ds ss pe ps pi : List Int) (b : Int),
      es ≠ [] → (∀ e ∈ es, 1 ≤ e) → es.getLast? = some ie →
      SliceSkips ds es = some ss → pe.length = pi.length → ps.length = pi.length →
      SliceIterator.advance es.prod.toNat
          { dims := D, input := b, extents := pe ++ es, inner_counter := 0, inner_extent := ie,
            skips := ps ++ ss, indices := pi ++ List.replicate es.length 0 }
        = ((tuples es).map (fun k => b + dot k (TensorPitches ds)),
           { dims := D,
             input := (SliceIterator.advanceLoop (pe ++ es) (ps ++ ss) pi.length
                        (pi ++ List.replicate es.length 0) (b + ds.prod)).2,
             extents := pe ++ es, inner_counter := 0, inner_extent := ie,
             skips := ps ++ ss,
             indices := (SliceIterator.advanceLoop (pe ++ es) (ps ++ ss) pi.length
                        (pi ++ List.replicate es.length 0) (b + ds.prod)).1 }) := by
  induction es with
  | nil => intro _ _ _ _ _ _ h; exact absurd rfl h
  | cons e es ih =>
    intro ds ss pe ps pi b _ hpos hlast hss hpe hps
    have hlen : (e :: es).length = ds.length := by
      by_contra h
      rw [SliceSkips_eq_none ds (e :: es) h] at hss
      exact Option.noConfusion hss
    obtain ⟨d, ds', rfl⟩ : ∃ d ds', ds = d :: ds' := by
      cases ds with
      | nil => simp at hlen
      | cons d ds' => exact ⟨d, ds', rfl⟩
    have he1 : 1 ≤ e := hpos e (by simp)
    obtain ⟨m, hm⟩ : ∃ m : Nat, e = (m : Int) + 1 := ⟨(e - 1).toNat, by omega⟩
    cases es with
    | nil =>
      -- the innermost axis: one run of `e` single advances
      have hds : ds' = [] := by
        cases ds' with
        | nil => rfl
        | cons _ _ => simp at hlen
      subst hds
      rw [SliceSkips_singleton] at hss
      have hss' := (Option.some.inj hss).symm
      subst hss'
      have hie : ie = e := by simpa using hlast.symm
      subst hie
      have hn : [ie].prod.toNat = m + 1 := by simp; omega
      rw [hn, advance_full_run m _ rfl hm]
      refine Prod.ext ?_ ?_
      · simp only [tuples, List.map_flatMap, List.map_cons, List.map_nil]
        have : ie.toNat = m + 1 := by omega
        rw [this, ← List.flatMap_singleton' (List.map _ _), List.flatMap_map]
        simp [dot, TensorPitches_cons]
      · simp only [SliceIterator.AdvanceOverInnerExtent, List.length_append, List.length_singleton,
          Nat.add_sub_cancel, List.length_cons, List.length_nil]
        rw [← hps, getD_append_cons, hps]
        have e1 : b + ((m : Int) + 1) + (d - ie) = b + [d].prod := by simp; omega
        rw [e1]
    | cons e2 es2 =>
      -- an outer axis: `e` blocks, each a traversal of the inner axes
      obtain ⟨ss', hss'⟩ : ∃ ss', SliceSkips ds' (e2 :: es2) = some ss' :=
        ⟨_, SliceSkips_eq_some ds' (e2 :: es2) (by simpa using hlen)⟩
      rw [SliceSkips_cons d e ds' (e2 :: es2) ss' hss'] at hss
      have hss2 := (Option.some.inj hss).symm
      subst hss2
      have hpos' : ∀ x ∈ e2 :: es2, 1 ≤ x := fun x hx => hpos x (List.mem_cons_of_mem _ hx)
      have hlast' : (e2 :: es2).getLast? = some ie := by
        rw [← hlast, List.getLast?_cons_cons]
      have hP : 0 ≤ (e2 :: es2).prod :=
        prod_nonneg_of_forall _ (fun x hx => le_trans (by decide) (hpos' x hx))
      have hblock : ∀ k : Int,
          SliceIterator.advance (e2 :: es2).prod.toNat
              { dims := D, input := b + k * ds'.prod, extents := pe ++ e :: e2 :: es2,
                inner_counter := 0, inner_extent := ie,
                skips := ps ++ (d - e) * ds'.prod :: ss',
                indices := pi ++ k :: List.replicate (e2 :: es2).length 0 }
            = ((tuples (e2 :: es2)).map (fun t => b + k * ds'.prod + dot t (TensorPitches ds')),
               if k + 1 = e then
                 { dims := D,
                   input := (SliceIterator.advanceLoop (pe ++ e :: e2 :: es2)
                              (ps ++ (d - e) * ds'.prod :: ss') pi.length
                              (pi ++ 0 :: List.replicate (e2 :: es2).length 0)
                              (b + (d :: ds').prod)).2,
                   extents := pe ++ e :: e2 :: es2, inner_counter := 0, inner_extent := ie,
                   skips := ps ++ (d - e) * ds'.prod :: ss',
                   indices := (SliceIterator.advanceLoop (pe ++ e :: e2 :: es2)
                              (ps ++ (d - e) * ds'.prod :: ss') pi.length
                              (pi ++ 0 :: List.replicate (e2 :: es2).length 0)
                              (b + (d :: ds').prod)).1 }
               else
                 { dims := D, input := b + (k + 1) * ds'.prod,
                   extents := pe ++ e :: e2 :: es2, inner_counter := 0, inner_extent := ie,
                   skips := ps ++ (d - e) * ds'.prod :: ss',
                   indices := pi ++ (k + 1) :: List.replicate (e2 :: es2).length 0 }) := by
        intro k
        have h := ih ds' ss' (pe ++ [e]) (ps ++ [(d - e) * ds'.prod]) (pi ++ [k])
          (b + k * ds'.prod) (by simp) hpos' hlast' hss' (by simp [hpe]) (by simp [hps])
        simp only [List.append_assoc, List.singleton_append, List.length_append,
          List.length_singleton] at h
        rw [h, advanceLoop_succ_at _ _ _ _ _ _ _ _ _ _ hpe hps]
        refine Prod.ext rfl ?_
        simp only []
        split
        · next hk =>
          have e1 : b + k * ds'.prod + ds'.prod + (d - e) * ds'.prod = b + (d :: ds').prod := by
            rw [List.prod_cons, ← hk]; ring
          rw [e1]
        · have e1 : b + k * ds'.prod + ds'.prod = b + (k + 1) * ds'.prod := by ring
          rw [e1]
      have hinner : ∀ j : Nat, (j : Int) < e →
          SliceIterator.advance (j * (e2 :: es2).prod.toNat)
              { dims := D, input := b, extents := pe ++ e :: e2 :: es2,
                inner_counter := 0, inner_extent := ie,
                skips := ps ++ (d - e) * ds'.prod :: ss',
                indices := pi ++ List.replicate (e :: e2 :: es2).length 0 }
            = ((List.range j).flatMap (fun k : Nat => (tuples (e2 :: es2)).map
                  (fun t => b + (k : Int) * ds'.prod + dot t (TensorPitches ds'))),
               { dims := D, input := b + (j : Int) * ds'.prod,
                 extents := pe ++ e :: e2 :: es2, inner_counter := 0, inner_extent := ie,
                 skips := ps ++ (d - e) * ds'.prod :: ss',
                 indices := pi ++ (j : Int) :: List.replicate (e2 :: es2).length 0 }) := by
        intro j
        induction j with
        | zero =>
          intro _
          simp [SliceIterator.advance, List.replicate_succ]
        | succ j ihj =>
          intro hj
          have hj1 : (j : Int) < e := by push_cast at hj; omega
          have hj2 : ¬ (j : Int) + 1 = e := by push_cast at hj; omega
          rw [Nat.succ_mul, advance_add, ihj hj1, hblock (j : Int), if_neg hj2]
          simp only [List.range_succ, List.flatMap_append, List.flatMap_singleton,
            Nat.cast_add, Nat.cast_one, List.flatMap_cons, List.flatMap_nil, List.append_nil]
      have hN : (e :: e2 :: es2).prod.toNat = (m + 1) * (e2 :: es2).prod.toNat := by
        rw [List.prod_cons, hm]
        obtain ⟨n, hn⟩ := Int.eq_ofNat_of_zero_le hP
        rw [hn]
        have : ((m : Int) + 1) * (n : Int) = (((m + 1) * n : Nat) : Int) := by push_cast; ring
        rw [this, Int.toNat_ofNat, Int.toNat_ofNat]
      rw [hN, Nat.succ_mul, advance_add, hinner m (by omega), hblock (m : Int),
        if_pos (by omega)]
      refine Prod.ext ?_ rfl
      have ht : tuples (e :: e2 :: es2) = (List.range e.toNat).flatMap
          (fun k => (tuples (e2 :: es2)).map (fun t => (k : Int) :: t)) := rfl
      have : e.toNat = m + 1 := by omega
      rw [ht, this, List.map_flatMap, List.range_succ, List.flatMap_append,
        List.flatMap_singleton, TensorPitches_cons]
      simp only [List.map_map]
      have hf : ∀ k : Nat, ((fun k => b + dot k (ds'.prod :: TensorPitches ds'))
            ∘ fun t => (k : Int) :: t)
          = fun t => b + (k : Int) * ds'.prod + dot t (TensorPitches ds') := by
        intro k
        funext t
        simp only [Function.comp, dot]
        ring
      simp only [hf]

theorem dot_zipWith_add (a k p : List Int) (h : a.length = k.length) :
    dot (List.zipWith (fun s x => s + x) a k) p = dot a p + dot k p := by
  induction a generalizing k p with
  | nil =>
    cases k with
    | nil => cases p <;> simp [dot]
    | cons _ _ => simp at h
  | cons x a ih =>
    cases k with
    | nil => simp at h
    | cons y k =>
      cases p with
      | nil => simp [dot]
      | cons q p =>
        simp only [List.zipWith_cons_cons, dot]
        rw [ih k p (by simpa using h)]
        ring

theorem forall_mem_of_forall_getD (l : List Int) (P : Int → Prop)
    (h : ∀ i, i < l.length → P (l.getD i 0)) : ∀ x ∈ l, P x := by
  intro x hx
  obtain ⟨n, hn, rfl⟩ := List.mem_iff_getElem.mp hx
  have := h n hn
  rwa [List.getD_eq_getElem _ _ hn] at this

theorem getLast?_eq_getD (l : List Int) (h : l ≠ []) :
    l.getLast? = some (l.getD (l.length - 1) 0) := by
  have hl : 0 < l.length := List.length_pos.mpr h
  rw [List.getLast?_eq_getElem?, List.getD_eq_getElem _ _ (by omega),
    List.getElem?_eq_getElem (by omega)]

theorem advance_from_construct (dims starts extents : List Int) (it : SliceIterator)
    (hR : 1 ≤ dims.length) (hs : starts.length = dims.length)
    (he : extents.length = dims.length) (hpos : ∀ e ∈ extents, 1 ≤ e)
    (hit : SliceIterator.construct dims starts extents = some it) :
    (SliceIterator.advance extents.prod.toNat it).1
      = (tuples extents).map (fun k => sliceOffset dims starts k) := by
  obtain ⟨skips, hsk, hc⟩ := SliceIterator_construct_eq_some dims starts extents hs he
  rw [hc] at hit
  have hit' := (Option.some.inj hit).symm
  subst hit'
  have hne : extents ≠ [] := by
    intro h
    rw [h] at he
    simp at he
    omega
  have hlast := getLast?_eq_getD extents hne
  rw [he] at hlast
  have h := advance_block dims (extents.getD (dims.length - 1) 0) extents dims skips [] [] []
    (dot starts (TensorPitches dims)) hne hpos hlast hsk rfl rfl
  simp only [List.nil_append, he] at h
  rw [h]
  apply List.map_congr_left
  intro k hk
  have hkl : k.length = extents.length := (forall₂_of_mem_tuples k extents hk).length_eq
  rw [sliceOffset, dot_zipWith_add _ _ _ (by omega)]

/-- C1: for a tensor of rank `R ≥ 1` and starts/extents of length `R` with `start_i ≥ 0`,
`extent_i ≥ 1` and `start_i + extent_i ≤ d_i`, the constructor succeeds and the first
`Π extent_i` calls of `operator++(int)` return, in order, the pointers at flat offsets
`Σ_i (start_i + k_i) * pitch_i`, with `k` running over all tuples `0 ≤ k_i < extent_i` in
lexicographic order and `pitch` the `TensorPitches` vector. -/
theorem SliceIterator_visits_slice_row_major (dims starts extents : List Int)
    (hR : 1 ≤ dims.length) (hs : starts.length = dims.length)
    (he : extents.length = dims.length)
    (hv : ∀ i, i < dims.length →
      0 ≤ starts.getD i 0 ∧ 1 ≤ extents.getD i 0
        ∧ starts.getD i 0 + extents.getD i 0 ≤ dims.getD i 0) :
    ∃ it, SliceIterator.construct dims starts extents = some it
      ∧ (SliceIterator.advance extents.prod.toNat it).1
          = (tuples extents).map
              (fun k => dot (List.zipWith (fun s x => s + x) starts k) (TensorPitches dims)) := by
  obtain ⟨_, _, hc⟩ := SliceIterator_construct_eq_some dims starts extents hs he
  refine ⟨_, hc, ?_⟩
  exact advance_from_construct dims starts extents _ hR hs he
    (forall_mem_of_forall_getD extents (fun e => 1 ≤ e)
      (fun i hi => (hv i (by omega)).2.1)) hc

/-- Witness for C1 at shape `(2,3,4)`, starts `(1,1,1)`, extents `(1,2,2)`. -/
theorem SliceIterator_visits_slice_row_major_witness :
    ∃ it, SliceIterator.construct [2, 3, 4] [1, 1, 1] [1, 2, 2] = some it
      ∧ (SliceIterator.advance [(1 : Int), 2, 2].prod.toNat it).1
          = (tuples [1, 2, 2]).map
              (fun k => dot (List.zipWith (fun s x => s + x) [1, 1, 1] k)
                (TensorPitches [2, 3, 4])) :=
  SliceIterator_visits_slice_row_major [2, 3, 4] [1, 1, 1] [1, 2, 2] (by decide) (by decide)
    (by decide) (by decide)

/-! ## Full traversal -/

theorem dot_replicate_zero (n : Nat) (p : List Int) : dot (List.replicate n 0) p = 0 := by
  induction n generalizing p with
  | zero => cases p <;> simp [dot]
  | succ n ih =>
    cases p with
    | nil => simp [dot, List.replicate_succ]
    | cons q p => simp [dot, List.replicate_succ, ih]

/-- C9: for a tensor of rank `R ≥ 1` with all dimension sizes `≥ 1`, a `SliceIterator` built
with starts all `0` and extents equal to the shape has a skip vector of `R` zeros, and
its first `Size` post-increments return the flat offsets `0, 1, ..., Size-1` in that
order. -/
theorem SliceIterator_full_shape_is_contiguous (dims : List Int) (hR : 1 ≤ dims.length)
    (hd : ∀ d ∈ dims, 1 ≤ d) :
    ∃ it, SliceIterator.construct dims (List.replicate dims.length 0) dims = some it
      ∧ it.skips = List.replicate dims.length 0
      ∧ (SliceIterator.advance (TensorShape.Size dims).toNat it).1
          = (List.range (TensorShape.Size dims).toNat).map (fun n : Nat => (n : Int)) := by
  obtain ⟨skips, hsk, hc⟩ := SliceIterator_construct_eq_some dims
    (List.replicate dims.length 0) dims (by simp) rfl
  refine ⟨_, hc, ?_, ?_⟩
  · apply ext_getD
    · simp [SliceSkips_length _ _ _ hsk]
    · intro i hi
      rw [SliceSkips_length _ _ _ hsk] at hi
      rw [SliceSkips_getD _ _ _ hsk i hi]
      simp [List.getD_eq_getElem?_getD, List.getElem?_replicate, hi]
  · have h := advance_from_construct dims (List.replicate dims.length 0) dims _ hR (by simp)
      rfl hd hc
    rw [TensorShape.Size, h,
      ← tuples_map_dot dims (fun d hd1 => le_trans (by decide) (hd d hd1))]
    apply List.map_congr_left
    intro k hk
    have hkl : k.length = dims.length := (forall₂_of_mem_tuples k dims hk).length_eq
    rw [sliceOffset, dot_zipWith_add _ _ _ (by simp [hkl]), dot_replicate_zero, zero_add]

/-- Witness for C9 at shape `(2,3,4)`. -/
theorem SliceIterator_full_shape_is_contiguous_witness :
    ∃ it, SliceIterator.construct [2, 3, 4] (List.replicate [(2 : Int), 3, 4].length 0) [2, 3, 4]
        = some it
      ∧ it.skips = List.replicate [(2 : Int), 3, 4].length 0
      ∧ (SliceIterator.advance (TensorShape.Size [2, 3, 4]).toNat it).1
          = (List.range (TensorShape.Size [2, 3, 4]).toNat).map (fun n : Nat => (n : Int)) :=
  SliceIterator_full_shape_is_contiguous [2, 3, 4] (by decide) (by decide)

/-! ## TensorAxisCounters visits the outer axes in row-major order -/

theorem getD_set_self (l : List Int) (a : Nat) (v : Int) (h : a < l.length) :
    (l.set a v).getD a 0 = v := by
  simp only [List.getD_eq_getElem?_getD]
  rw [List.getElem?_set_self h]
  rfl

theorem getD_set_ne (l : List Int) (a i : Nat) (v : Int) (h : a ≠ i) :
    (l.set a v).getD i 0 = l.getD i 0 := by
  simp only [List.getD_eq_getElem?_getD]
  rw [List.getElem?_set_ne h]

theorem dot_set (idx p : List Int) (a : Nat) (v : Int) (h1 : a < idx.length)
    (h2 : a < p.length) :
    dot (idx.set a v) p = dot idx p + (v - idx.getD a 0) * p.getD a 0 := by
  induction idx generalizing a p with
  | nil => simp at h1
  | cons x idx ih =>
    cases p with
    | nil => simp at h2
    | cons q p =>
      cases a with
      | zero => simp [dot]; ring
      | succ a =>
        simp only [List.set_cons_succ, dot, List.getD_cons_succ]
        rw [ih p a (by simpa using h1) (by simpa using h2)]
        ring

theorem dot_eq_zero_of_forall (idx p : List Int) (h : ∀ i, i < idx.length → idx.getD i 0 = 0) :
    dot idx p = 0 := by
  have : idx = List.replicate idx.length 0 := by
    apply ext_getD
    · simp
    · intro i hi
      rw [h i hi]
      simp [List.getD_eq_getElem?_getD, List.getElem?_replicate, hi]
  rw [this, dot_replicate_zero]

theorem carryLoop_spec (D D' : List Int)
    (hD : ∀ i, i < D'.length → D.getD i 0 = D'.getD i 0)
    (hpos : ∀ i, i < D'.length → 1 ≤ D'.getD i 0) (a : Nat) :
    ∀ (fuel : Nat) (idx : List Int), a < fuel → a ≤ D'.length → idx.length = D'.length →
      (∀ i, i < D'.length → 0 ≤ idx.getD i 0 ∧ (i < a → idx.getD i 0 < D'.getD i 0)
        ∧ (a ≤ i → idx.getD i 0 = 0)) →
      ∃ idx' : List Int, idx'.length = D'.length ∧
        ((TensorAxisCounters.carryLoop fuel ⟨D, true, a, idx⟩
              = some ⟨D, true, D'.length, idx'⟩
            ∧ (∀ i, i < D'.length → 0 ≤ idx'.getD i 0 ∧ idx'.getD i 0 < D'.getD i 0)
            ∧ dot idx' (TensorPitches D') = dot idx (TensorPitches D') + (D'.drop a).prod)
         ∨ (TensorAxisCounters.carryLoop fuel ⟨D, true, a, idx⟩ = some ⟨D, false, 0, idx'⟩
            ∧ dot idx (TensorPitches D') + (D'.drop a).prod = D'.prod)) := by
  induction a with
  | zero =>
    intro fuel idx hf _ hlen hidx
    obtain ⟨f, rfl⟩ : ∃ f, fuel = f + 1 := ⟨fuel - 1, by omega⟩
    refine ⟨idx, hlen, Or.inr ⟨?_, ?_⟩⟩
    · simp [TensorAxisCounters.carryLoop, TensorAxisCounters.Increment]
    · rw [dot_eq_zero_of_forall idx _ (fun i hi => (hidx i (by omega)).2.2 (Nat.zero_le i))]
      simp
  | succ a ih =>
    intro fuel idx hf ha hlen hidx
    obtain ⟨f, rfl⟩ : ∃ f, fuel = f + 1 := ⟨fuel - 1, by omega⟩
    have haL : a < D'.length := by omega
    have hpa : (TensorPitches D').getD a 0 = (D'.drop (a + 1)).prod := TensorPitches_getD D' a haL
    have hstep : TensorAxisCounters.carryLoop (f + 1) ⟨D, true, a + 1, idx⟩
        = if idx.getD a 0 + 1 ≠ D'.getD a 0 then
            some ⟨D, true, D'.length, idx.set a (idx.getD a 0 + 1)⟩
          else TensorAxisCounters.carryLoop f ⟨D, true, a, idx.set a 0⟩ := by
      have hinc : TensorAxisCounters.Increment ⟨D, true, a + 1, idx⟩
          = if idx.getD a 0 + 1 ≠ D'.getD a 0 then
              (false, ⟨D, true, D'.length, idx.set a (idx.getD a 0 + 1)⟩)
            else (true, ⟨D, true, a, idx.set a 0⟩) := by
        simp only [TensorAxisCounters.Increment, Nat.add_sub_cancel, Nat.succ_ne_zero, if_false]
        rw [getD_set_self _ _ _ (by omega), hD a haL, List.set_set, List.length_set, hlen]
      simp only [TensorAxisCounters.carryLoop, hinc]
      split_ifs <;> rfl
    rw [hstep]
    by_cases hcmp : idx.getD a 0 + 1 = D'.getD a 0
    · rw [if_neg (by simpa using hcmp)]
      obtain ⟨idx', hl', h⟩ := ih f (idx.set a 0) (by omega) (by omega) (by simpa using hlen)
        (fun i hi => by
          by_cases hia : a = i
          · subst hia
            rw [getD_set_self _ _ _ (by omega)]
            exact ⟨le_rfl, fun h => absurd h (lt_irrefl _), fun _ => rfl⟩
          · rw [getD_set_ne _ _ _ _ hia]
            exact ⟨(hidx i hi).1, fun h => (hidx i hi).2.1 (by omega),
              fun h => (hidx i hi).2.2 (by omega)⟩)
      have e1 : dot (idx.set a 0) (TensorPitches D') + (D'.drop a).prod
          = dot idx (TensorPitches D') + (D'.drop (a + 1)).prod := by
        rw [dot_set _ _ _ _ (by omega) (by rw [TensorPitches_length]; exact haL), hpa,
          drop_prod_eq D' a haL, ← hcmp]
        ring
      rw [e1] at h
      exact ⟨idx', hl', h⟩
    · rw [if_pos hcmp]
      refine ⟨idx.set a (idx.getD a 0 + 1), by simpa using hlen, Or.inl ⟨rfl, ?_, ?_⟩⟩
      · intro i hi
        by_cases hia : a = i
        · subst hia
          rw [getD_set_self _ _ _ (by omega)]
          have := hidx a hi
          have h2 := this.2.1 (by omega)
          omega
        · rw [getD_set_ne _ _ _ _ hia]
          have := hidx i hi
          refine ⟨this.1, ?_⟩
          rcases Nat.lt_or_ge i (a + 1) with h | h
          · exact this.2.1 h
          · rw [this.2.2 h]
            have := hpos i hi
            omega
      · rw [dot_set _ _ _ _ (by omega) (by rw [TensorPitches_length]; exact haL), hpa]
        ring

theorem forall₂_of_forall_getD (idx dims : List Int) (hlen : idx.length = dims.length)
    (h : ∀ i, i < dims.length → 0 ≤ idx.getD i 0 ∧ idx.getD i 0 < dims.getD i 0) :
    List.Forall₂ (fun i d => 0 ≤ i ∧ i < d) idx dims := by
  rw [List.forall₂_iff_get]
  refine ⟨hlen, fun i h1 h2 => ?_⟩
  have := h i h2
  rwa [List.getD_eq_getElem _ _ h1, List.getD_eq_getElem _ _ h2] at this

theorem drive_spec (D D' : List Int)
    (hD : ∀ i, i < D'.length → D.getD i 0 = D'.getD i 0)
    (hpos : ∀ i, i < D'.length → 1 ≤ D'.getD i 0) (k : Nat) :
    ∀ (fuel : Nat) (idx : List Int), idx.length = D'.length →
      (∀ i, i < D'.length → 0 ≤ idx.getD i 0 ∧ idx.getD i 0 < D'.getD i 0) →
      dot idx (TensorPitches D') + (k : Int) = D'.prod → k + D'.length + 1 ≤ fuel →
      TensorAxisCounters.drive fuel ⟨D, true, D'.length, idx⟩
        = some ((tuples D').drop (dot idx (TensorPitches D')).toNat) := by
  have h0 : ∀ d ∈ D', 0 ≤ d :=
    forall_mem_of_forall_getD D' (fun d => 0 ≤ d) (fun i hi => le_trans (by decide) (hpos i hi))
  induction k with
  | zero =>
    intro fuel idx hlen hidx hk _
    have := (tuples_getElem?_dot D' idx h0 (forall₂_of_forall_getD idx D' hlen hidx)).2.1
    simp only [Nat.cast_zero, add_zero] at hk
    omega
  | succ k ih =>
    intro fuel idx hlen hidx hk hfuel
    obtain ⟨f, rfl⟩ : ∃ f, fuel = f + 1 := ⟨fuel - 1, by omega⟩
    obtain ⟨hn0, hnP, hget⟩ :=
      tuples_getElem?_dot D' idx h0 (forall₂_of_forall_getD idx D' hlen hidx)
    obtain ⟨hlt, hgetE⟩ := List.getElem?_eq_some_iff.mp hget
    have hdrop := List.drop_eq_getElem_cons hlt
    rw [hgetE] at hdrop
    obtain ⟨idx', hl', h⟩ := carryLoop_spec D D' hD hpos D'.length (f + 1) idx (by omega) le_rfl
      hlen (fun i hi => ⟨(hidx i hi).1, fun _ => (hidx i hi).2, fun h => absurd hi (by omega)⟩)
    rw [List.drop_of_length_le le_rfl, List.prod_nil] at h
    rcases h with ⟨hc, hin, hdot⟩ | ⟨hc, hdot⟩
    · have := ih f idx' hl' hin (by rw [hdot]; push_cast at hk; omega) (by omega)
      simp only [TensorAxisCounters.drive, TensorAxisCounters.toBool, if_true, hc, this]
      rw [hdrop, hdot]
      congr 3
      omega
    · obtain ⟨f', rfl⟩ : ∃ f', f = f' + 1 := ⟨f - 1, by omega⟩
      simp only [TensorAxisCounters.drive, TensorAxisCounters.toBool, if_true, hc]
      rw [hdrop, List.drop_of_length_le (by rw [tuples_length D' h0]; omega)]
      rfl

theorem one_le_prod_of_forall (dims : List Int) (h : ∀ d ∈ dims, 1 ≤ d) : 1 ≤ dims.prod := by
  induction dims with
  | nil => simp
  | cons d ds ih =>
    rw [List.prod_cons]
    have h1 := h d (by simp)
    have h2 := ih (fun x hx => h x (by simp [hx]))
    nlinarith

theorem getD_dropLast (dims : List Int) (i : Nat) (hi : i < dims.dropLast.length) :
    dims.getD i 0 = dims.dropLast.getD i 0 := by
  have hi2 : i < dims.length := by
    rw [List.length_dropLast] at hi
    omega
  rw [List.getD_eq_getElem _ _ hi, List.getD_eq_getElem _ _ hi2, List.getElem_dropLast]

/-- C5: for a shape of rank `R ≥ 1` whose dimension sizes are all `≥ 1`, the loop
`while (counters) { visit(indices); while (counters.Increment()) {} }` terminates (any
bound of at least `Π_{i ≤ R-2} d_i + R` iterations is enough) and visits the index tuples
over the outer axes `0..R-2` in lexicographic order starting from all zeros: there are
`Π_{i ≤ R-2} d_i` visits, no tuple is visited twice, and the visited tuples are exactly
the in-range ones; shape `(2,3,4)` gives `(0,0),(0,1),(0,2),(1,0),(1,1),(1,2)` and a shape
of rank 1 gives exactly one visit. -/
theorem TensorAxisCounters_visits_outer_axes_row_major (dims : List Int)
    (hR : 1 ≤ dims.length) (hd : ∀ d ∈ dims, 1 ≤ d) :
    (∀ fuel, dims.dropLast.prod.toNat + dims.length ≤ fuel →
        TensorAxisCounters.drive fuel (TensorAxisCounters.construct dims)
          = some (tuples dims.dropLast))
    ∧ (tuples dims.dropLast).length = dims.dropLast.prod.toNat
    ∧ (tuples dims.dropLast).Nodup
    ∧ (∀ t, t ∈ tuples dims.dropLast
        ↔ List.Forall₂ (fun i d => 0 ≤ i ∧ i < d) t dims.dropLast)
    ∧ (tuples dims.dropLast).head? = some (List.replicate (dims.length - 1) 0)
    ∧ TensorAxisCounters.drive 9 (TensorAxisCounters.construct [2, 3, 4])
        = some [[0, 0], [0, 1], [0, 2], [1, 0], [1, 1], [1, 2]]
    ∧ (dims.length = 1 →
        TensorAxisCounters.drive 2 (TensorAxisCounters.construct dims) = some [[]]) := by
  have hd' : ∀ d ∈ dims.dropLast, 1 ≤ d := fun d h => hd d (List.mem_of_mem_dropLast h)
  have h0 : ∀ d ∈ dims.dropLast, 0 ≤ d := fun d h => le_trans (by decide) (hd' d h)
  have hpos : ∀ i, i < dims.dropLast.length → 1 ≤ dims.dropLast.getD i 0 := by
    intro i hi
    rw [List.getD_eq_getElem _ _ hi]
    exact hd' _ (List.getElem_mem _)
  have hL : dims.dropLast.length = dims.length - 1 := List.length_dropLast dims
  have hcon : TensorAxisCounters.construct dims
      = ⟨dims, true, dims.dropLast.length, List.replicate dims.dropLast.length 0⟩ := by
    have : TensorShape.Size dims ≠ 0 := by
      have := one_le_prod_of_forall dims hd
      rw [TensorShape.Size]
      omega
    simp [TensorAxisCounters.construct, this, hL]
  have hzero : dot (List.replicate dims.dropLast.length 0) (TensorPitches dims.dropLast) = 0 :=
    dot_replicate_zero _ _
  have hzin : ∀ i, i < dims.dropLast.length →
      0 ≤ (List.replicate dims.dropLast.length (0 : Int)).getD i 0
      ∧ (List.replicate dims.dropLast.length (0 : Int)).getD i 0 < dims.dropLast.getD i 0 := by
    intro i hi
    have : (List.replicate dims.dropLast.length (0 : Int)).getD i 0 = 0 := by
      rw [List.getD_eq_getElem _ _ (by simpa using hi)]
      simp
    rw [this]
    exact ⟨le_rfl, by have := hpos i hi; omega⟩
  have hmain : ∀ fuel, dims.dropLast.prod.toNat + dims.length ≤ fuel →
      TensorAxisCounters.drive fuel (TensorAxisCounters.construct dims)
        = some (tuples dims.dropLast) := by
    intro fuel hfuel
    have hP := prod_nonneg_of_forall dims.dropLast h0
    have := drive_spec dims dims.dropLast (getD_dropLast dims) hpos dims.dropLast.prod.toNat fuel
      (List.replicate dims.dropLast.length 0) (by simp) hzin
      (by rw [hzero, Int.toNat_of_nonneg hP, zero_add]) (by omega)
    rw [hcon, this, hzero]
    rfl
  refine ⟨hmain, tuples_length _ h0, tuples_nodup _ h0,
    fun t => ⟨forall₂_of_mem_tuples t _, mem_tuples t _⟩, ?_, by decide, ?_⟩
  · have hz := (tuples_getElem?_dot dims.dropLast _ h0
      (forall₂_of_forall_getD _ _ (by simp) hzin)).2.2
    rw [hzero] at hz
    rw [← hL, List.head?_eq_getElem?]
    exact hz
  · intro h1
    obtain ⟨d, rfl⟩ : ∃ d, dims = [d] := List.length_eq_one.mp h1
    exact hmain 2 (by simp)

/-- Witness for C5 at shape `(2,3,4)` with a bound of nine iterations. -/
theorem TensorAxisCounters_visits_outer_axes_row_major_witness :
    TensorAxisCounters.drive 9 (TensorAxisCounters.construct [2, 3, 4])
      = some (tuples [(2 : Int), 3, 4].dropLast) :=
  (TensorAxisCounters_visits_outer_axes_row_major [2, 3, 4] (by decide) (by decide)).1 9
    (by decide)

/-! ## OpKernelContext: argument slots -/

/-- Counterexample to C18 as stated: a node with one input and one output, argument start
index `0`, and a frame holding `10` in slot `0` and `20` in slot `1`.  `Input<T>(1)` is
outside the declared arity, yet it yields a value, the one stored in the slot of output
`0`; `Output<T>(-1)` likewise yields the value of input `0`. -/
theorem Input_beyond_arity_reads_output_slot :
    OpKernelContext.Input
        ⟨⟨fun slot => if slot = 0 then some (10 : Nat) else if slot = 1 then some 20 else none⟩,
          1, 0⟩ (1 + 0)
      = some 20
    ∧ OpKernelContext.Output
        ⟨⟨fun slot => if slot = 0 then some (10 : Nat) else if slot = 1 then some 20 else none⟩,
          1, 0⟩ 0
      = some 20
    ∧ OpKernelContext.Output
        ⟨⟨fun slot => if slot = 0 then some (10 : Nat) else if slot = 1 then some 20 else none⟩,
          1, 0⟩ (-1)
      = some 10 := by
  decide

/-- C18 (amended): `Input<T>` and `Output<T>` make no arity check of their own: for every
index, inside the declared arity or not, `Input<T>(i)` yields what the execution frame
holds at slot `arg_start + i` and `Output<T>(j)` what it holds at slot
`arg_start + N + j`, so an access fails only where the frame fails; in particular
`Input<T>(N + j)` yields the same as `Output<T>(j)`. -/
theorem Input_Output_unchecked {V : Type} (ctx : OpKernelContext V) :
    (∀ i : Int, ctx.Input i = ctx.execution_frame.GetValue (ctx.arg_start_index + i))
    ∧ (∀ j : Int, ctx.Output j
        = ctx.execution_frame.GetMutableValue (ctx.arg_start_index + ctx.num_inputs + j))
    ∧ (∀ j : Int, ctx.Input (ctx.num_inputs + j) = ctx.Output j) := by
  refine ⟨fun i => rfl, fun j => rfl, fun j => ?_⟩
  simp only [OpKernelContext.Input, OpKernelContext.Output, OpKernelContext.input_arg_index,
    OpKernelContext.output_arg_index, ExecutionFrame.GetValue, ExecutionFrame.GetMutableValue,
    add_assoc]

/-- C19: with argument start index `s` and `N` declared inputs, `Input<T>(i)` reads frame
slot `s + i` and `Output<T>(j)` accesses slot `s + N + j`; for `M` declared outputs the
`N + M` logical arguments (inputs first) are mapped one-to-one onto the slot range
`[s, s + N + M)`: the slot of the `k`-th argument is `s + k`, every slot of the range is
the slot of an argument, and no input slot is an output slot. -/
theorem argument_slots_contiguous {V : Type} (ctx : OpKernelContext V) (M : Nat) :
    (∀ i : Int, ctx.Input i = ctx.execution_frame.GetValue (ctx.arg_start_index + i)
      ∧ ctx.input_arg_index i = ctx.arg_start_index + i)
    ∧ (∀ j : Int, ctx.Output j
          = ctx.execution_frame.GetMutableValue (ctx.arg_start_index + ctx.num_inputs + j)
        ∧ ctx.output_arg_index j = ctx.arg_start_index + ctx.num_inputs + j)
    ∧ (∀ i : Int, 0 ≤ i → i < ctx.num_inputs →
        ctx.arg_start_index ≤ ctx.input_arg_index i
        ∧ ctx.input_arg_index i < ctx.arg_start_index + ctx.num_inputs)
    ∧ (∀ j : Int, 0 ≤ j → j < M →
        ctx.arg_start_index + ctx.num_inputs ≤ ctx.output_arg_index j
        ∧ ctx.output_arg_index j < ctx.arg_start_index + ctx.num_inputs + M)
    ∧ (∀ i i' : Int, ctx.input_arg_index i = ctx.input_arg_index i' → i = i')
    ∧ (∀ j j' : Int, ctx.output_arg_index j = ctx.output_arg_index j' → j = j')
    ∧ (∀ i j : Int, i < ctx.num_inputs → 0 ≤ j →
        ctx.input_arg_index i ≠ ctx.output_arg_index j)
    ∧ (∀ slot : Int, ctx.arg_start_index ≤ slot →
        slot < ctx.arg_start_index + ctx.num_inputs + M →
        (∃ i : Int, 0 ≤ i ∧ i < ctx.num_inputs ∧ ctx.input_arg_index i = slot)
        ∨ (∃ j : Int, 0 ≤ j ∧ j < M ∧ ctx.output_arg_index j = slot)) := by
  refine ⟨fun i => ⟨rfl, rfl⟩, fun j => ⟨rfl, rfl⟩, ?_⟩
  simp only [OpKernelContext.input_arg_index, OpKernelContext.output_arg_index]
  refine ⟨fun i h1 h2 => by omega,
    fun j h1 h2 => by omega, fun i i' h => by omega, fun j j' h => by omega,
    fun i j h1 h2 => by omega, fun slot h1 h2 => ?_⟩
  by_cases h : slot < ctx.arg_start_index + ctx.num_inputs
  · exact Or.inl ⟨slot - ctx.arg_start_index, by omega, by omega, by omega⟩
  · exact Or.inr ⟨slot - ctx.arg_start_index - ctx.num_inputs, by omega, by omega, by omega⟩

/-! ## OpKernel: the default ComputeAsync -/

/-- C20: the default `ComputeAsync` ends, for every context, every done callback and every
state of the program, in the "not implemented" failure: it returns no status, in
particular no success status, and it leaves the state untouched, so the done callback
has not run. -/
theorem ComputeAsync_default_not_implemented {V W : Type} (context : OpKernelContext V)
    (done : W → W) (world : W) :
    (OpKernel.ComputeAsync context done world).1 = ComputeOutcome.not_implemented
    ∧ (∀ status : common.Status,
        (OpKernel.ComputeAsync context done world).1 ≠ ComputeOutcome.returned status)
    ∧ (OpKernel.ComputeAsync context done world).2 = world
    ∧ (OpKernel.ComputeAsync (V := V) ⟨⟨fun _ => none⟩, 0, 0⟩ (fun calls : Nat => calls + 1) 0).2
        = 0 := by
  refine ⟨rfl, fun status h => ?_, rfl, rfl⟩
  simp [OpKernel.ComputeAsync, LOTUS_NOT_IMPLEMENTED] at h

end Lotus

namespace onnxruntime

/-! ## Identity elimination: the graph after `Apply` -/

theorem getD_set_none (l : List (Option Node)) (i c : Nat) (v : Option Node)
    (hi : l.getD i none ≠ none) :
    (l.set i v).getD c none = if c = i then v else l.getD c none := by
  have hlt : i < l.length := by
    by_contra h
    exact hi (by simp [List.getD_eq_getElem?_getD, List.getElem?_eq_none (not_lt.mp h)])
  simp only [List.getD_eq_getElem?_getD]
  by_cases h : c = i
  · subst h
    rw [List.getElem?_set_self hlt, if_pos rfl]
    rfl
  · rw [List.getElem?_set_ne (fun h2 => h h2.symm), if_neg h]

theorem ReplaceDefsAt_node? (g : Graph) (it c : NodeIndex) (r : List (NodeArg × NodeArg)) :
    (g.ReplaceDefsAt it r).node? c
      = if c = it then (g.node? c).map (fun n => n.ReplaceDefs r) else g.node? c := by
  unfold Graph.ReplaceDefsAt
  cases h : g.node? it with
  | none =>
    by_cases hc : c = it
    · subst hc; simp [h]
    · simp [hc]
  | some n =>
    simp only [Graph.node?]
    rw [getD_set_none _ _ _ _ (by rw [Graph.node?] at h; rw [h]; simp)]
    by_cases hc : c = it
    · subst hc
      rw [Graph.node?] at h
      rw [if_pos rfl, if_pos rfl, h]
      rfl
    · rw [if_neg hc, if_neg hc]

theorem ReplaceDefsAt_rest (g : Graph) (it : NodeIndex) (r : List (NodeArg × NodeArg)) :
    (g.ReplaceDefsAt it r).inputs = g.inputs ∧ (g.ReplaceDefsAt it r).outputs = g.outputs
    ∧ (g.ReplaceDefsAt it r).nodes.length = g.nodes.length := by
  unfold Graph.ReplaceDefsAt
  cases g.node? it <;> simp

theorem applyLoop_node? (r : List (NodeArg × NodeArg))
    (hidem : ∀ n : Node, (n.ReplaceDefs r).ReplaceDefs r = n.ReplaceDefs r)
    (its : List NodeIndex) (g : Graph) (m : Bool) (c : NodeIndex) :
    (EliminateIdentity.applyLoop r its g m).1.node? c
      = if c ∈ its then (g.node? c).map (fun n => n.ReplaceDefs r) else g.node? c := by
  induction its generalizing g m with
  | nil => simp [EliminateIdentity.applyLoop]
  | cons it rest ih =>
    simp only [EliminateIdentity.applyLoop]
    rw [ih, ReplaceDefsAt_node?]
    by_cases h1 : c = it
    · subst h1
      simp only [if_true, List.mem_cons, true_or]
      split
      · cases g.node? c <;> simp [hidem]
      · rfl
    · simp [h1]

theorem applyLoop_rest (r : List (NodeArg × NodeArg)) (its : List NodeIndex) (g : Graph)
    (m : Bool) :
    (EliminateIdentity.applyLoop r its g m).1.inputs = g.inputs
    ∧ (EliminateIdentity.applyLoop r its g m).1.outputs = g.outputs
    ∧ (EliminateIdentity.applyLoop r its g m).1.nodes.length = g.nodes.length := by
  induction its generalizing g m with
  | nil => simp [EliminateIdentity.applyLoop]
  | cons it rest ih =>
    simp only [EliminateIdentity.applyLoop]
    obtain ⟨h1, h2, h3⟩ := ih (g.ReplaceDefsAt it r) true
    obtain ⟨k1, k2, k3⟩ := ReplaceDefsAt_rest g it r
    exact ⟨h1.trans k1, h2.trans k2, h3.trans k3⟩

theorem applyLoop_modified (r : List (NodeArg × NodeArg)) (its : List NodeIndex) (g : Graph)
    (m : Bool) :
    (EliminateIdentity.applyLoop r its g m).2 = if its = [] then m else true := by
  induction its generalizing g m with
  | nil => simp [EliminateIdentity.applyLoop]
  | cons it rest ih =>
    simp only [EliminateIdentity.applyLoop]
    rw [ih]
    split <;> simp

theorem RemoveNode_node? (g : Graph) (n c : NodeIndex) :
    (GraphEditor.RemoveNode g n).2.node? c = if c = n then none else g.node? c := by
  unfold GraphEditor.RemoveNode
  cases h : g.node? n with
  | none =>
    by_cases hc : c = n
    · subst hc; simp [h]
    · simp [hc]
  | some x =>
    simp only [Graph.node?]
    rw [getD_set_none _ _ _ _ (by rw [Graph.node?] at h; rw [h]; simp)]

theorem RemoveNode_rest (g : Graph) (n : NodeIndex) :
    (GraphEditor.RemoveNode g n).2.inputs = g.inputs
    ∧ (GraphEditor.RemoveNode g n).2.outputs = g.outputs
    ∧ (GraphEditor.RemoveNode g n).2.nodes.length = g.nodes.length := by
  unfold GraphEditor.RemoveNode
  cases g.node? n <;> simp

theorem ReplaceDefs_single (n : Node) (x y : NodeArg) :
    n.ReplaceDefs [(y, x)]
      = { n with input_defs := n.input_defs.map (fun d => if d = y then x else d) } := by
  simp only [Node.ReplaceDefs]
  congr 1
  apply List.map_congr_left
  intro d _
  by_cases h : d = y
  · subst h; simp [List.lookup]
  · have : (d == y) = false := by simpa using h
    simp [List.lookup, this, h]

theorem ReplaceDefs_single_idem (x y : NodeArg) (n : Node) :
    (n.ReplaceDefs [(y, x)]).ReplaceDefs [(y, x)] = n.ReplaceDefs [(y, x)] := by
  rw [ReplaceDefs_single, ReplaceDefs_single]
  simp only [List.map_map]
  congr 1
  apply List.map_congr_left
  intro d _
  simp only [Function.comp]
  by_cases h : d = y
  · simp [h]
  · simp [h]

/-- What `Apply` returns on a node of the graph that has an input def `x` and an output
def `y`: always `OK`, with the consumers rewired and the node released. -/
theorem Apply_eq (g : Graph) (n : NodeIndex) (N : Node) (x y : NodeArg) (m : Bool)
    (hN : g.node? n = some N) (hx : N.input_defs.head? = some x)
    (hy : N.output_defs.head? = some y) :
    ∃ g', EliminateIdentity.Apply g n m
        = some (common.Status.OK, g', if N.output_nodes = [] then m else true)
      ∧ g'.inputs = g.inputs ∧ g'.outputs = g.outputs ∧ g'.nodes.length = g.nodes.length
      ∧ ∀ c, g'.node? c
          = if c = n then none
            else if c ∈ N.output_nodes then (g.node? c).map (fun C => C.ReplaceDefs [(y, x)])
            else g.node? c := by
  obtain ⟨xs, hxs⟩ : ∃ xs, N.input_defs = x :: xs := by
    cases h : N.input_defs with
    | nil => rw [h] at hx; simp at hx
    | cons a as => rw [h] at hx; simp at hx; exact ⟨as, by rw [hx]⟩
  obtain ⟨ys, hys⟩ : ∃ ys, N.output_defs = y :: ys := by
    cases h : N.output_defs with
    | nil => rw [h] at hy; simp at hy
    | cons a as => rw [h] at hy; simp at hy; exact ⟨as, by rw [hy]⟩
  refine ⟨(GraphEditor.RemoveNode
    (EliminateIdentity.applyLoop [(y, x)] N.output_nodes g m).1 n).2, ?_, ?_, ?_, ?_, ?_⟩
  · simp only [EliminateIdentity.Apply, hN, hxs, hys, applyLoop_modified]
  · rw [(RemoveNode_rest _ _).1, (applyLoop_rest _ _ _ _).1]
  · rw [(RemoveNode_rest _ _).2.1, (applyLoop_rest _ _ _ _).2.1]
  · rw [(RemoveNode_rest _ _).2.2, (applyLoop_rest _ _ _ _).2.2]
  · intro c
    rw [RemoveNode_node?, applyLoop_node? _ (ReplaceDefs_single_idem x y)]

theorem node?_lt (g : Graph) (c : NodeIndex) (C : Node) (h : g.node? c = some C) :
    c < g.nodes.length := by
  by_contra hlt
  rw [Graph.node?, List.getD_eq_getElem?_getD, List.getElem?_eq_none (not_lt.mp hlt)] at h
  exact Option.noConfusion h

/-- C11: on a node `n` with input def `x = InputDefs()[0]` and output def
`y = OutputDefs()[0]`, `Apply` returns `OK` and every consumer of `n` that stays in the
graph has afterwards, at every input position, the def `x` where it had `y` and its
original def elsewhere, with the number and order of its inputs unchanged; in the chain
`A -> Identity -> B` the input of `B` that was the Identity's output is afterwards the
output of `A`. -/
theorem Apply_rewires_consumers (g : Graph) (n : NodeIndex) (N : Node) (x y : NodeArg)
    (m : Bool) (hN : g.node? n = some N) (hx : N.input_defs.head? = some x)
    (hy : N.output_defs.head? = some y) :
    (∃ g' m', EliminateIdentity.Apply g n m = some (common.Status.OK, g', m')
      ∧ ∀ c C, c ∈ N.output_nodes → c ≠ n → g.node? c = some C →
          ∃ C', g'.node? c = some C'
            ∧ C'.input_defs = C.input_defs.map (fun d => if d = y then x else d)
            ∧ C'.input_defs.length = C.input_defs.length
            ∧ (∀ p : Nat, C'.input_defs[p]?
                = (C.input_defs[p]?).map (fun d => if d = y then x else d))
            ∧ C'.output_defs = C.output_defs)
    ∧ EliminateIdentity.Apply
          ⟨[some ⟨[0], [1], [1]⟩, some ⟨[1], [2], [2]⟩, some ⟨[2, 5], [3], []⟩], [0, 5], [3]⟩
          1 false
        = some (common.Status.OK,
            ⟨[some ⟨[0], [1], [1]⟩, none, some ⟨[1, 5], [3], []⟩], [0, 5], [3]⟩, true) := by
  refine ⟨?_, by decide⟩
  obtain ⟨g', hA, _, _, _, hnode⟩ := Apply_eq g n N x y m hN hx hy
  refine ⟨g', _, hA, ?_⟩
  intro c C hc hcn hC
  refine ⟨C.ReplaceDefs [(y, x)], ?_, ?_, ?_, ?_, ?_⟩
  · rw [hnode c, if_neg hcn, if_pos hc, hC]
    rfl
  · rw [ReplaceDefs_single]
  · rw [ReplaceDefs_single]
    simp
  · intro p
    rw [ReplaceDefs_single]
    simp
  · rw [ReplaceDefs_single]

/-- Witness for C11 on the chain `A -> Identity -> B`. -/
theorem Apply_rewires_consumers_witness :
    ∃ g' m', EliminateIdentity.Apply
        ⟨[some ⟨[0], [1], [1]⟩, some ⟨[1], [2], [2]⟩, some ⟨[2, 5], [3], []⟩], [0, 5], [3]⟩
        1 false = some (common.Status.OK, g', m')
      ∧ ∀ c C, c ∈ (⟨[1], [2], [2]⟩ : Node).output_nodes → c ≠ 1 →
          Graph.node? ⟨[some ⟨[0], [1], [1]⟩, some ⟨[1], [2], [2]⟩,
            some ⟨[2, 5], [3], []⟩], [0, 5], [3]⟩ c = some C →
          ∃ C', g'.node? c = some C'
            ∧ C'.input_defs = C.input_defs.map (fun d => if d = 2 then 1 else d)
            ∧ C'.input_defs.length = C.input_defs.length
            ∧ (∀ p : Nat, C'.input_defs[p]?
                = (C.input_defs[p]?).map (fun d => if d = 2 then 1 else d))
            ∧ C'.output_defs = C.output_defs :=
  (Apply_rewires_consumers
    ⟨[some ⟨[0], [1], [1]⟩, some ⟨[1], [2], [2]⟩, some ⟨[2, 5], [3], []⟩], [0, 5], [3]⟩
    1 ⟨[1], [2], [2]⟩ 1 2 false rfl rfl rfl).1

/-- C12: for a well-formed graph (each node that lists a def among its inputs is an output
node of the def's producer; the graph is acyclic, as every graph of the program is) and a
node `n` of it, `Apply` returns `OK`, the graph no longer contains `n`, and no node
remaining in the graph has the output def `y` of `n` among its input defs: the
substitution has reached every consumer of `n` before `n` is removed. -/
theorem Apply_leaves_no_reference (g : Graph) (n : NodeIndex) (N : Node) (x y : NodeArg)
    (m : Bool) (hwf : g.ConsumersLinked) (hac : g.Acyclic) (hN : g.node? n = some N)
    (hx : N.input_defs.head? = some x) (hy : N.output_defs.head? = some y) :
    ∃ g' m', EliminateIdentity.Apply g n m = some (common.Status.OK, g', m')
      ∧ g'.node? n = none
      ∧ ∀ c C, g'.node? c = some C → y ∉ C.input_defs := by
  have hxy : x ≠ y := by
    intro h
    obtain ⟨rank, hrank⟩ := hac
    have := hrank n (node?_lt g n N hN) N hN x (List.mem_of_mem_head? hx)
      y (List.mem_of_mem_head? hy)
    rw [h] at this
    exact lt_irrefl _ this
  obtain ⟨g', hA, _, _, _, hnode⟩ := Apply_eq g n N x y m hN hx hy
  refine ⟨g', _, hA, by rw [hnode n, if_pos rfl], ?_⟩
  intro c C hC
  rw [hnode c] at hC
  by_cases hcn : c = n
  · rw [if_pos hcn] at hC
    exact Option.noConfusion hC
  · rw [if_neg hcn] at hC
    by_cases hc : c ∈ N.output_nodes
    · rw [if_pos hc] at hC
      cases h0 : g.node? c with
      | none => rw [h0] at hC; exact Option.noConfusion hC
      | some C0 =>
        rw [h0, Option.map_some'] at hC
        have hC' := (Option.some.inj hC).symm
        subst hC'
        rw [ReplaceDefs_single]
        simp only [List.mem_map, not_exists, not_and]
        intro d _ hd
        by_cases hdy : d = y
        · rw [if_pos hdy] at hd
          exact hxy hd
        · rw [if_neg hdy] at hd
          exact hdy hd
    · rw [if_neg hc] at hC
      intro hyC
      have hyN : y ∈ N.output_defs := List.mem_of_mem_head? hy
      exact hc (hwf c (node?_lt g c C hC) n (node?_lt g n N hN) C hC N hN y hyC hyN)

/-- Witness for C12 on the chain `A -> Identity -> B`, whose second input `5` is a graph
input; the rank orders the defs along the edges. -/
theorem Apply_leaves_no_reference_witness :
    ∃ g' m', EliminateIdentity.Apply
        ⟨[some ⟨[0], [1], [1]⟩, some ⟨[1], [2], [2]⟩, some ⟨[2, 5], [3], []⟩], [0, 5], [3]⟩
        1 false = some (common.Status.OK, g', m')
      ∧ g'.node? 1 = none
      ∧ ∀ c C, g'.node? c = some C → 2 ∉ C.input_defs :=
  Apply_leaves_no_reference
    ⟨[some ⟨[0], [1], [1]⟩, some ⟨[1], [2], [2]⟩, some ⟨[2, 5], [3], []⟩], [0, 5], [3]⟩
    1 ⟨[1], [2], [2]⟩ 1 2 false (by decide) ⟨fun d => if d = 5 then 0 else d, by decide⟩
    rfl rfl rfl

/-- C14: on a node `n` without consumers (and with the input and output def that `Apply`
reads), `Apply` returns `OK`, the graph no longer contains `n`, every other node is left
as it was (input and output defs included), and `*modified` keeps its value. -/
theorem Apply_without_consumers (g : Graph) (n : NodeIndex) (N : Node) (m : Bool)
    (hN : g.node? n = some N) (hin : N.input_defs ≠ []) (hout : N.output_defs ≠ [])
    (hno : N.output_nodes = []) :
    ∃ g', EliminateIdentity.Apply g n m = some (common.Status.OK, g', m)
      ∧ g'.node? n = none
      ∧ (∀ c, c ≠ n → g'.node? c = g.node? c)
      ∧ (∀ c C, c ≠ n → g.node? c = some C →
          ∃ C', g'.node? c = some C' ∧ C'.input_defs = C.input_defs
            ∧ C'.output_defs = C.output_defs) := by
  obtain ⟨x, hx⟩ : ∃ x, N.input_defs.head? = some x := by
    cases h : N.input_defs with
    | nil => exact absurd h hin
    | cons a _ => exact ⟨a, rfl⟩
  obtain ⟨y, hy⟩ : ∃ y, N.output_defs.head? = some y := by
    cases h : N.output_defs with
    | nil => exact absurd h hout
    | cons a _ => exact ⟨a, rfl⟩
  obtain ⟨g', hA, _, _, _, hnode⟩ := Apply_eq g n N x y m hN hx hy
  rw [if_pos hno] at hA
  have hother : ∀ c, c ≠ n → g'.node? c = g.node? c := by
    intro c hc
    rw [hnode c, if_neg hc, if_neg (by rw [hno]; simp)]
  refine ⟨g', hA, by rw [hnode n, if_pos rfl], hother, ?_⟩
  intro c C hc hC
  exact ⟨C, by rw [hother c hc, hC], rfl, rfl⟩

/-- Witness for C14: a graph `A -> B` plus an Identity node `2` reading the output of `A`
that nobody consumes. -/
theorem Apply_without_consumers_witness :
    ∃ g', EliminateIdentity.Apply
        ⟨[some ⟨[0], [1], [1, 2]⟩, some ⟨[1], [3], []⟩, some ⟨[1], [2], []⟩], [0], [3]⟩ 2 false
        = some (common.Status.OK, g', false)
      ∧ g'.node? 2 = none
      ∧ (∀ c, c ≠ 2 → g'.node? c
          = Graph.node? ⟨[some ⟨[0], [1], [1, 2]⟩, some ⟨[1], [3], []⟩,
              some ⟨[1], [2], []⟩], [0], [3]⟩ c)
      ∧ (∀ c C, c ≠ 2 →
          Graph.node? ⟨[some ⟨[0], [1], [1, 2]⟩, some ⟨[1], [3], []⟩,
              some ⟨[1], [2], []⟩], [0], [3]⟩ c = some C →
          ∃ C', g'.node? c = some C' ∧ C'.input_defs = C.input_defs
            ∧ C'.output_defs = C.output_defs) :=
  Apply_without_consumers
    ⟨[some ⟨[0], [1], [1, 2]⟩, some ⟨[1], [3], []⟩, some ⟨[1], [2], []⟩], [0], [3]⟩
    2 ⟨[1], [2], []⟩ false rfl (by decide) (by decide) rfl

/-- C15 fails on the code: on a graph whose only node has no consumers and with
`*modified == false` on entry, `Apply` returns `OK` and releases the node, so the graph
has changed, yet `*modified` is still `false` on return. -/
theorem Apply_removal_leaves_modified_false :
    EliminateIdentity.Apply ⟨[some ⟨[0], [1], []⟩], [0], []⟩ 0 false
        = some (common.Status.OK, ⟨[none], [0], []⟩, false)
    ∧ (⟨[none], [0], []⟩ : Graph) ≠ ⟨[some ⟨[0], [1], []⟩], [0], []⟩ := by
  decide

/-- Counterexample to C16 as stated: an Identity node whose output def is a graph output.
The graph is valid, well-formed and acyclic; `Apply` returns `OK` (no failure), the graph
has changed (the node is released), and the resulting graph is not valid: its graph
output `1` is produced by no node. -/
theorem Apply_on_graph_output_is_OK_and_invalid :
    Graph.Valid ⟨[some ⟨[0], [1], []⟩], [0], [1]⟩
    ∧ Graph.WellFormed ⟨[some ⟨[0], [1], []⟩], [0], [1]⟩
    ∧ Graph.Acyclic ⟨[some ⟨[0], [1], []⟩], [0], [1]⟩
    ∧ EliminateIdentity.Apply ⟨[some ⟨[0], [1], []⟩], [0], [1]⟩ 0 false
        = some (common.Status.OK, ⟨[none], [0], [1]⟩, false)
    ∧ ¬ Graph.Valid ⟨[none], [0], [1]⟩
    ∧ (⟨[none], [0], [1]⟩ : Graph) ≠ ⟨[some ⟨[0], [1], []⟩], [0], [1]⟩ :=
  ⟨by decide, by decide, ⟨id, by decide⟩, by decide, by decide, by decide⟩

/-- C16 (amended): for a valid graph (every def consumed by a node or listed as a graph
output is produced by a node or is a graph input) that is well-formed (each consumer is an
output node of the producer of its def) and acyclic, and a node `n` of it with an input
def and with the single output def `y`, where `y` is not a graph output, `Apply` returns
`OK` and the resulting graph is valid. -/
theorem Apply_OK_and_valid_unless_graph_output (g : Graph) (n : NodeIndex) (N : Node)
    (x y : NodeArg) (m : Bool) (hval : g.Valid) (hwf : g.ConsumersLinked) (hac : g.Acyclic)
    (hN : g.node? n = some N) (hx : N.input_defs.head? = some x)
    (hsingle : N.output_defs = [y]) (hyout : y ∉ g.outputs) :
    ∃ g' m', EliminateIdentity.Apply g n m = some (common.Status.OK, g', m')
      ∧ g'.Valid := by
  have hy : N.output_defs.head? = some y := by rw [hsingle]; rfl
  have hxy : x ≠ y := by
    intro h
    obtain ⟨rank, hrank⟩ := hac
    have := hrank n (node?_lt g n N hN) N hN x (List.mem_of_mem_head? hx)
      y (List.mem_of_mem_head? hy)
    rw [h] at this
    exact lt_irrefl _ this
  obtain ⟨g', hA, hinp, houtp, hlen, hnode⟩ := Apply_eq g n N x y m hN hx hy
  refine ⟨g', _, hA, ?_⟩
  have hnlt := node?_lt g n N hN
  -- a def other than `y` that is available in `g` is available in `g'`
  have havail : ∀ d, d ≠ y → g.Available d → g'.Available d := by
    intro d hdy hd
    rcases hd with hd | ⟨p, hp, P, hP, hdP⟩
    · exact Or.inl (by rw [hinp]; exact hd)
    · have hpn : p ≠ n := by
        intro hpn
        subst hpn
        rw [hN] at hP
        have := Option.some.inj hP
        subst this
        rw [hsingle] at hdP
        exact hdy (by simpa using hdP)
      refine Or.inr ⟨p, by rw [hlen]; exact hp, ?_⟩
      by_cases hc : p ∈ N.output_nodes
      · refine ⟨P.ReplaceDefs [(y, x)], ?_, ?_⟩
        · rw [hnode p, if_neg hpn, if_pos hc]
          rw [Option.mem_def] at hP
          rw [hP]
          rfl
        · rw [ReplaceDefs_single]
          exact hdP
      · exact ⟨P, by rw [hnode p, if_neg hpn, if_neg hc]; exact hP, hdP⟩
  have hxav : g.Available x :=
    hval.1 n hnlt N hN x (List.mem_of_mem_head? hx)
  refine ⟨?_, ?_⟩
  · intro c hcl C hC d hd
    rw [hnode c] at hC
    by_cases hcn : c = n
    · rw [if_pos hcn] at hC
      exact Option.noConfusion hC
    · rw [if_neg hcn] at hC
      by_cases hc : c ∈ N.output_nodes
      · rw [if_pos hc] at hC
        cases h0 : g.node? c with
        | none => rw [h0] at hC; exact Option.noConfusion hC
        | some C0 =>
          rw [h0, Option.map_some'] at hC
          have hC' := (Option.some.inj hC).symm
          subst hC'
          rw [ReplaceDefs_single] at hd
          simp only [List.mem_map] at hd
          obtain ⟨d0, hd0, hd0d⟩ := hd
          by_cases hdy : d0 = y
          · rw [if_pos hdy] at hd0d
            rw [← hd0d]
            exact havail x hxy hxav
          · rw [if_neg hdy] at hd0d
            rw [← hd0d]
            exact havail d0 hdy (hval.1 c (node?_lt g c C0 h0) C0 h0 d0 hd0)
      · rw [if_neg hc] at hC
        have hdy : d ≠ y := by
          intro hdy
          subst hdy
          exact hc (hwf c (node?_lt g c C hC) n hnlt C hC N hN d hd
            (List.mem_of_mem_head? hy))
        exact havail d hdy (hval.1 c (node?_lt g c C hC) C hC d hd)
  · intro d hd
    rw [houtp] at hd
    exact havail d (fun h => hyout (h ▸ hd)) (hval.2 d hd)

/-- Witness for C16 (amended) on the chain `A -> Identity -> B`, whose graph output `3` is
the output def of `B`. -/
theorem Apply_OK_and_valid_unless_graph_output_witness :
    ∃ g' m', EliminateIdentity.Apply
        ⟨[some ⟨[0], [1], [1]⟩, some ⟨[1], [2], [2]⟩, some ⟨[2, 5], [3], []⟩], [0, 5], [3]⟩
        1 false = some (common.Status.OK, g', m')
      ∧ g'.Valid :=
  Apply_OK_and_valid_unless_graph_output
    ⟨[some ⟨[0], [1], [1]⟩, some ⟨[1], [2], [2]⟩, some ⟨[2, 5], [3], []⟩], [0, 5], [3]⟩
    1 ⟨[1], [2], [2]⟩ 1 2 false (by decide) (by decide)
    ⟨fun d => if d = 5 then 0 else d, by decide⟩ rfl rfl rfl (by decide)

/-- C13: for a well-formed acyclic graph, a node `n` with the single input def `x` and the
single output def `y`, and an interpretation in which `n` copies its input to its output,
`Apply` returns `OK` and preserves the computed values: every computation `val` of the
original graph is a computation of the resulting graph, in which every remaining node
receives the same input values and produces the same output values as in the original
graph; and every computation of the resulting graph comes from a computation of the
original graph that differs from it at most in the value of `y`. -/
theorem Apply_preserves_computed_values {V : Type} (g : Graph) (n : NodeIndex) (N : Node)
    (x y : NodeArg) (m : Bool) (interp : NodeIndex → List V → List V) (inp : NodeArg → V)
    (hwf : g.WellFormed) (hac : g.Acyclic) (hN : g.node? n = some N)
    (hin : N.input_defs = [x]) (hout : N.output_defs = [y])
    (hcopy : ∀ v, interp n [v] = [v]) :
    ∃ g' m', EliminateIdentity.Apply g n m = some (common.Status.OK, g', m')
      ∧ (∀ val, g.Computes interp inp val →
          g'.Computes interp inp val
          ∧ ∀ c C', g'.node? c = some C' →
              ∃ C, g.node? c = some C
                ∧ C'.input_defs.map val = C.input_defs.map val
                ∧ C'.output_defs.map val = C.output_defs.map val
                ∧ C'.output_defs.map val = interp c (C'.input_defs.map val))
      ∧ (∀ val', g'.Computes interp inp val' →
          g.Computes interp inp (Function.update val' y (val' x))
          ∧ ∀ d, d ≠ y → Function.update val' y (val' x) d = val' d) := by
  have hx : N.input_defs.head? = some x := by rw [hin]; rfl
  have hy : N.output_defs.head? = some y := by rw [hout]; rfl
  obtain ⟨rank, hrank⟩ := hac
  have hxy : x ≠ y := by
    intro h
    have := hrank n (node?_lt g n N hN) N hN x (by rw [hin]; simp) y (by rw [hout]; simp)
    rw [h] at this
    exact lt_irrefl _ this
  have hnlt := node?_lt g n N hN
  obtain ⟨g', hA, hinp, _, _, hnode⟩ := Apply_eq g n N x y m hN hx hy
  -- every remaining node is a node of `g` with the substitution applied to its inputs
  have hrem : ∀ c C', g'.node? c = some C' → c ≠ n ∧ ∃ C, g.node? c = some C
      ∧ C'.output_defs = C.output_defs
      ∧ C'.input_defs = C.input_defs.map (fun d => if d = y then x else d) := by
    intro c C' hC'
    rw [hnode c] at hC'
    by_cases hcn : c = n
    · rw [if_pos hcn] at hC'
      exact Option.noConfusion hC'
    · rw [if_neg hcn] at hC'
      refine ⟨hcn, ?_⟩
      by_cases hc : c ∈ N.output_nodes
      · rw [if_pos hc] at hC'
        cases h0 : g.node? c with
        | none => rw [h0] at hC'; exact Option.noConfusion hC'
        | some C0 =>
          rw [h0, Option.map_some'] at hC'
          have := (Option.some.inj hC').symm
          subst this
          exact ⟨C0, rfl, by rw [ReplaceDefs_single], by rw [ReplaceDefs_single]⟩
      · rw [if_neg hc] at hC'
        refine ⟨C', hC', rfl, ?_⟩
        symm
        conv_rhs => rw [← List.map_id C'.input_defs]
        apply List.map_congr_left
        intro d hd
        have hdy : d ≠ y := by
          intro hdy
          subst hdy
          exact hc (hwf.2 c (node?_lt g c C' hC') n hnlt C' hC' N hN d hd
            (by rw [hout]; simp))
        simp [hdy]
  refine ⟨g', _, hA, ?_, ?_⟩
  · intro val hval
    have hvy : val y = val x := by
      have := hval.2 n N hN
      rw [hin, hout] at this
      simp only [List.map_cons, List.map_nil] at this
      rw [hcopy] at this
      simpa using this
    have hsub : ∀ C : Node,
        (C.input_defs.map (fun d => if d = y then x else d)).map val = C.input_defs.map val := by
      intro C
      rw [List.map_map]
      apply List.map_congr_left
      intro d _
      by_cases hdy : d = y
      · simp [hdy, hvy]
      · simp [hdy]
    have hnodes : ∀ c C', g'.node? c = some C' →
        ∃ C, g.node? c = some C
          ∧ C'.input_defs.map val = C.input_defs.map val
          ∧ C'.output_defs.map val = C.output_defs.map val
          ∧ C'.output_defs.map val = interp c (C'.input_defs.map val) := by
      intro c C' hC'
      obtain ⟨_, C, hC, ho, hi⟩ := hrem c C' hC'
      have h1 : C'.input_defs.map val = C.input_defs.map val := by rw [hi, hsub]
      refine ⟨C, hC, h1, by rw [ho], ?_⟩
      rw [h1, ho]
      exact hval.2 c C hC
    refine ⟨⟨fun d hd => hval.1 d (by rw [← hinp]; exact hd), ?_⟩, hnodes⟩
    intro c C' hC'
    obtain ⟨_, _, _, _, h⟩ := hnodes c C' hC'
    exact h
  · intro val' hval'
    have hupd : ∀ d, d ≠ y → Function.update val' y (val' x) d = val' d :=
      fun d hd => Function.update_noteq hd _ _
    refine ⟨⟨?_, ?_⟩, hupd⟩
    · intro d hd
      have hdy : d ≠ y := by
        intro hdy
        subst hdy
        exact hwf.1.2 n hnlt N hN d (by rw [hout]; simp) hd
      rw [hupd d hdy]
      exact hval'.1 d (by rw [hinp]; exact hd)
    · intro c C hC
      by_cases hcn : c = n
      · subst hcn
        rw [hN] at hC
        have := Option.some.inj hC
        subst this
        rw [hin, hout]
        simp only [List.map_cons, List.map_nil, Function.update_same]
        rw [hupd x hxy, hcopy]
      · have hC0 : g.node? c = some C := hC
        have hC' : g'.node? c
            = some (if c ∈ N.output_nodes then C.ReplaceDefs [(y, x)] else C) := by
          rw [hnode c, if_neg hcn, hC0]
          split <;> rfl
        obtain ⟨_, C1, hC1, ho, hi⟩ := hrem c _ hC'
        rw [hC0] at hC1
        have := Option.some.inj hC1
        subst this
        have hcomp := hval'.2 c _ hC'
        rw [ho, hi] at hcomp
        have houtv : C.output_defs.map (Function.update val' y (val' x))
            = C.output_defs.map val' := by
          apply List.map_congr_left
          intro d hd
          apply hupd
          intro hdy
          subst hdy
          exact hcn (hwf.1.1 c (node?_lt g c C hC0) n hnlt C hC0 N hN d hd
            (by rw [hout]; simp))
        have hinv : C.input_defs.map (Function.update val' y (val' x))
            = (C.input_defs.map (fun d => if d = y then x else d)).map val' := by
          rw [List.map_map]
          apply List.map_congr_left
          intro d _
          by_cases hdy : d = y
          · subst hdy
            simp
          · simp [hdy, hupd d hdy]
        rw [houtv, hinv]
        exact hcomp

/-- Witness for C13 on the chain `A -> Identity -> B`, with integer values, the Identity
copying and the other nodes summing their inputs. -/
theorem Apply_preserves_computed_values_witness :
    ∃ g' m', EliminateIdentity.Apply
        ⟨[some ⟨[0], [1], [1]⟩, some ⟨[1], [2], [2]⟩, some ⟨[2, 5], [3], []⟩], [0, 5], [3]⟩
        1 false = some (common.Status.OK, g', m')
      ∧ ∀ val : NodeArg → Int,
          Graph.Computes
            ⟨[some ⟨[0], [1], [1]⟩, some ⟨[1], [2], [2]⟩, some ⟨[2, 5], [3], []⟩], [0, 5], [3]⟩
            (fun p vs => if p = 1 then vs else [vs.sum]) (fun d => (d : Int)) val →
          g'.Computes (fun p vs => if p = 1 then vs else [vs.sum]) (fun d => (d : Int)) val := by
  obtain ⟨g', m', h, h1, _⟩ := Apply_preserves_computed_values
    ⟨[some ⟨[0], [1], [1]⟩, some ⟨[1], [2], [2]⟩, some ⟨[2, 5], [3], []⟩], [0, 5], [3]⟩
    1 ⟨[1], [2], [2]⟩ 1 2 false (fun p vs => if p = 1 then vs else [vs.sum])
    (fun d => (d : Int)) (by decide) ⟨fun d => if d = 5 then 0 else d, by decide⟩ rfl rfl rfl (fun _ => rfl)
  exact ⟨g', m', h, fun val hv => (h1 val hv).1⟩

/-! ## Unsqueeze: the output shape -/

theorem count_zero_set_one (l : List Int) (i : Nat) (hi : i < l.length)
    (h0 : l.getD i 0 = 0) : (l.set i 1).count 0 + 1 = l.count 0 := by
  induction l generalizing i with
  | nil => simp at hi
  | cons x l ih =>
    cases i with
    | zero =>
      simp only [List.getD_cons_zero] at h0
      subst h0
      simp [List.count_cons]
    | succ i =>
      simp only [List.getD_cons_succ] at h0
      have := ih i (by simpa using hi) h0
      simp only [List.set_cons_succ, List.count_cons]
      omega

theorem getD_set_one (l : List Int) (i j : Nat) (hi : i < l.length) :
    (l.set i 1).getD j 0 = if j = i then 1 else l.getD j 0 := by
  simp only [List.getD_eq_getElem?_getD]
  by_cases h : j = i
  · subst h
    rw [List.getElem?_set_self hi, if_pos rfl]
    rfl
  · rw [List.getElem?_set_ne (fun h2 => h h2.symm), if_neg h]

theorem axesLoop_inr (axes : List Int) :
    ∀ out out' : List Int, UnsqueezeBase.axesLoop axes out = Sum.inr out' →
      out'.length = out.length
      ∧ (∀ a ∈ axes, toSizeT a < out.length ∧ out.getD (toSizeT a) 0 = 0)
      ∧ (axes.map toSizeT).Nodup
      ∧ (∀ i, out'.getD i 0 = if i ∈ axes.map toSizeT then 1 else out.getD i 0)
      ∧ out'.count 0 + axes.length = out.count 0 := by
  induction axes with
  | nil =>
    intro out out' h
    simp only [UnsqueezeBase.axesLoop, Sum.inr.injEq] at h
    subst h
    simp
  | cons a rest ih =>
    intro out out' h
    simp only [UnsqueezeBase.axesLoop] at h
    by_cases h1 : toSizeT a ≥ out.length
    · rw [if_pos h1] at h
      exact Sum.noConfusion h
    · rw [if_neg h1] at h
      by_cases h2 : out.getD (toSizeT a) 0 ≠ 0
      · rw [if_pos h2] at h
        exact Sum.noConfusion h
      · rw [if_neg h2] at h
        have hlt : toSizeT a < out.length := not_le.mp h1
        have hz : out.getD (toSizeT a) 0 = 0 := not_not.mp h2
        obtain ⟨k1, k2, k3, k4, k5⟩ := ih _ _ h
        have hnot : toSizeT a ∉ rest.map toSizeT := by
          intro hmem
          obtain ⟨b, hb, hab⟩ := List.mem_map.mp hmem
          have := (k2 b hb).2
          rw [hab, getD_set_one _ _ _ hlt, if_pos rfl] at this
          exact one_ne_zero this
        refine ⟨by rw [k1]; simp, ?_, ?_, ?_, ?_⟩
        · intro b hb
          rcases List.mem_cons.mp hb with hb | hb
          · subst hb
            exact ⟨hlt, hz⟩
          · have := k2 b hb
            rw [List.length_set] at this
            refine ⟨this.1, ?_⟩
            have h3 := this.2
            rw [getD_set_one _ _ _ hlt] at h3
            by_cases h4 : toSizeT b = toSizeT a
            · rw [if_pos h4] at h3
              exact absurd h3 one_ne_zero
            · rw [if_neg h4] at h3
              exact h3
        · rw [List.map_cons]
          exact List.nodup_cons.mpr ⟨hnot, k3⟩
        · intro i
          rw [k4 i, getD_set_one _ _ _ hlt, List.map_cons]
          by_cases h5 : i ∈ rest.map toSizeT
          · simp [h5]
          · by_cases h6 : i = toSizeT a
            · simp [h6]
            · simp [h5, h6]
        · have := count_zero_set_one out (toSizeT a) hlt hz
          rw [List.length_cons]
          omega

theorem fillLoop_spec (out : List Int) :
    ∀ dims : List Int, out.count 0 = dims.length →
      ∃ o, UnsqueezeBase.fillLoop out dims = some (o, [])
        ∧ o.length = out.length
        ∧ (∀ i, out.getD i 0 ≠ 0 → o.getD i 0 = out.getD i 0)
        ∧ ((List.range out.length).filter (fun i => decide (out.getD i 0 = 0))).map
            (fun i => o.getD i 0) = dims := by
  induction out with
  | nil =>
    intro dims h
    have : dims = [] := by
      cases dims with
      | nil => rfl
      | cons _ _ => simp at h
    subst this
    exact ⟨[], rfl, rfl, fun i hi => absurd rfl hi, rfl⟩
  | cons a rest ih =>
    intro dims h
    by_cases ha : a = 0
    · subst ha
      cases dims with
      | nil => simp at h
      | cons d dims' =>
        have hc : rest.count 0 = dims'.length := by simpa using h
        obtain ⟨o', h1, h2, h3, h4⟩ := ih dims' hc
        refine ⟨d :: o', by simp [UnsqueezeBase.fillLoop, h1], by simp [h2], ?_, ?_⟩
        · intro i hi
          cases i with
          | zero => simp at hi
          | succ i => simpa using h3 i (by simpa using hi)
        · rw [List.length_cons, List.range_succ_eq_map, List.filter_cons]
          simp only [List.getD_cons_zero, decide_True, if_true, List.map_cons, List.filter_map,
            List.map_map]
          congr 1
    · have hc : rest.count 0 = dims.length := by
        rw [← h, List.count_cons_of_ne (fun h0 => ha h0.symm)]
      obtain ⟨o', h1, h2, h3, h4⟩ := ih dims hc
      refine ⟨a :: o', by simp [UnsqueezeBase.fillLoop, ha, h1], by simp [h2], ?_, ?_⟩
      · intro i hi
        cases i with
        | zero => simp
        | succ i => simpa using h3 i (by simpa using hi)
      · rw [List.length_cons, List.range_succ_eq_map, List.filter_cons]
        simp only [List.getD_cons_zero, ha, decide_False, Bool.false_eq_true, if_false,
          List.filter_map, List.map_map]
        exact h4

theorem getD_replicate_zero (n i : Nat) : (List.replicate n (0 : Int)).getD i 0 = 0 := by
  simp only [List.getD_eq_getElem?_getD, List.getElem?_replicate]
  split <;> rfl

theorem toSizeT_of_lt (a : Int) (n : Nat) (hn : n ≤ 2 ^ 63) (h1 : -2 ^ 63 ≤ a)
    (h2 : a < 2 ^ 63) (hlt : toSizeT a < n) : 0 ≤ a ∧ toSizeT a = a.toNat := by
  have e64 : (2 : Int) ^ 64 = 18446744073709551616 := by norm_num
  have e63 : (2 : Int) ^ 63 = 9223372036854775808 := by norm_num
  have n63 : (2 : Nat) ^ 63 = 9223372036854775808 := by norm_num
  rw [toSizeT, e64] at *
  rw [e63] at h1 h2
  rw [n63] at hn
  omega

/-- What `PrepareCompute` returns once the validation loop over `axes_` has passed: `OK`,
with the output requested for a shape that has `1` at the positions of `axes_` and the
input dimension sizes, in order, at the other positions. -/
theorem PrepareCompute_of_axesLoop_inr (axes dims marks : List Int)
    (hacc : UnsqueezeBase.axesLoop axes (List.replicate (axes.length + dims.length) 0)
      = Sum.inr marks) :
    ∃ o, UnsqueezeBase.PrepareCompute axes (some dims) = some (common.Status.OK, some o)
      ∧ UnsqueezeBase.fillLoop marks dims = some (o, [])
      ∧ o.length = dims.length + axes.length
      ∧ (∀ a ∈ axes, toSizeT a < o.length ∧ o.getD (toSizeT a) 0 = 1)
      ∧ ((List.range o.length).filter (fun i => decide (i ∉ axes.map toSizeT))).map
          (fun i => o.getD i 0) = dims := by
  obtain ⟨k1, k2, _, k4, k5⟩ := axesLoop_inr axes _ _ hacc
  rw [List.length_replicate] at k1
  have hmark : ∀ i, marks.getD i 0 = if i ∈ axes.map toSizeT then 1 else 0 := by
    intro i
    rw [k4 i, getD_replicate_zero]
  have hcount : marks.count 0 = dims.length := by
    rw [List.count_replicate_self] at k5
    omega
  obtain ⟨o, h1, h2, h3, h4⟩ := fillLoop_spec marks dims hcount
  refine ⟨o, ?_, h1, by rw [h2, k1]; omega, ?_, ?_⟩
  · simp only [UnsqueezeBase.PrepareCompute, hacc, h1, if_true]
  · intro a ha
    have hlt := (k2 a ha).1
    rw [List.length_replicate] at hlt
    have hm : marks.getD (toSizeT a) 0 = 1 := by
      rw [hmark, if_pos (List.mem_map_of_mem _ ha)]
    refine ⟨by rw [h2, k1]; exact hlt, ?_⟩
    rw [h3 _ (by rw [hm]; exact one_ne_zero), hm]
  · rw [h2, ← h4]
    congr 1
    apply List.filter_congr
    intro i _
    rw [hmark i]
    by_cases hi : i ∈ axes.map toSizeT
    · simp [hi]
    · simp [hi]

/-- C17: whenever `PrepareCompute` accepts the axes list (it returns `OK` and requests the
output with shape `o`), `o` has rank `R + |axes|`, `o[a] = 1` for every `a` in `axes`, and
the entries of `o` at the positions not in `axes`, in increasing position order, are the
input dimension sizes in their original order.  The positions are the entries of `axes`
converted to `size_t`; for `int64_t` entries and a rank of at most `2^63` they are the
entries themselves, which are then non-negative. -/
theorem PrepareCompute_output_shape (axes dims o : List Int)
    (h : UnsqueezeBase.PrepareCompute axes (some dims) = some (common.Status.OK, some o)) :
    o.length = dims.length + axes.length
    ∧ (∀ a ∈ axes, toSizeT a < o.length ∧ o.getD (toSizeT a) 0 = 1)
    ∧ ((List.range o.length).filter (fun i => decide (i ∉ axes.map toSizeT))).map
        (fun i => o.getD i 0) = dims
    ∧ (o.length ≤ 2 ^ 63 → ∀ a ∈ axes, -2 ^ 63 ≤ a → a < 2 ^ 63 →
        0 ≤ a ∧ toSizeT a = a.toNat ∧ o.getD a.toNat 0 = 1) := by
  cases hacc : UnsqueezeBase.axesLoop axes (List.replicate (axes.length + dims.length) 0) with
  | inl status =>
    simp only [UnsqueezeBase.PrepareCompute, hacc] at h
    simp at h
  | inr marks =>
    obtain ⟨o', h1, _, h2, h3, h4⟩ := PrepareCompute_of_axesLoop_inr axes dims marks hacc
    rw [h] at h1
    have ho : o = o' := by simpa using h1
    subst ho
    refine ⟨h2, h3, h4, ?_⟩
    intro hlen a ha hlo hhi
    obtain ⟨hnn, heq⟩ := toSizeT_of_lt a o.length hlen hlo hhi (h3 a ha).1
    exact ⟨hnn, heq, by rw [← heq]; exact (h3 a ha).2⟩

/-- Witness for C17 at input shape `(5, 0)` and axes `(0, 3)`. -/
theorem PrepareCompute_output_shape_witness :
    [(1 : Int), 5, 0, 1].length = [(5 : Int), 0].length + [(0 : Int), 3].length
    ∧ (∀ a ∈ [(0 : Int), 3],
        toSizeT a < [(1 : Int), 5, 0, 1].length ∧ [(1 : Int), 5, 0, 1].getD (toSizeT a) 0 = 1)
    ∧ ((List.range [(1 : Int), 5, 0, 1].length).filter
          (fun i => decide (i ∉ [(0 : Int), 3].map toSizeT))).map
        (fun i => [(1 : Int), 5, 0, 1].getD i 0) = [5, 0]
    ∧ ([(1 : Int), 5, 0, 1].length ≤ 2 ^ 63 → ∀ a ∈ [(0 : Int), 3], -2 ^ 63 ≤ a → a < 2 ^ 63 →
        0 ≤ a ∧ toSizeT a = a.toNat ∧ [(1 : Int), 5, 0, 1].getD a.toNat 0 = 1) :=
  PrepareCompute_output_shape [0, 3] [5, 0] [1, 5, 0, 1] (by decide)

end onnxruntime

namespace Lotus

/-! ## TensorAxisCounters: one call of Increment -/

theorem Increment_dims (c : TensorAxisCounters) : c.Increment.2.dims = c.dims := by
  simp only [TensorAxisCounters.Increment]
  split
  · rfl
  · split <;> rfl

theorem Increment_indices_length (c : TensorAxisCounters) :
    c.Increment.2.indices.length = c.indices.length := by
  simp only [TensorAxisCounters.Increment]
  split
  · rfl
  · split <;> simp

theorem Increment_axis_le (c : TensorAxisCounters) (h : c.axis ≤ c.indices.length) :
    c.Increment.2.axis ≤ c.Increment.2.indices.length := by
  simp only [TensorAxisCounters.Increment]
  split
  · exact h
  · split
    · simp
    · simp only [List.length_set]
      omega

theorem Reachable_invariant (dims : List Int) (c : TensorAxisCounters)
    (h : TensorAxisCounters.Reachable (TensorAxisCounters.construct dims) c) :
    c.dims = dims ∧ c.indices.length = dims.length - 1 ∧ c.axis ≤ c.indices.length := by
  induction h with
  | start =>
    simp only [TensorAxisCounters.construct]
    split <;> simp
  | increment c _ ih =>
    exact ⟨by rw [Increment_dims, ih.1], by rw [Increment_indices_length, ih.2.1],
      Increment_axis_le c ih.2.2⟩

/-- C21: for every state reached from construction on a shape of rank `R ≥ 1` with all
dimension sizes `≥ 1`: if `Axis() = 0`, `Increment` clears `running_` and returns `false`,
leaving the rest of the state as it is; if `Axis() = a > 0`, `Increment` adds `1` to the
counter of axis `a-1` and returns `true` exactly when that counter has reached the
dimension size of the axis, in which case the counter is reset to `0` and `Axis()` is
`a-1`, and otherwise it returns `false` with the counter incremented and `Axis()` back at
`R-1`. -/
theorem Increment_carry_behaviour (dims : List Int) (hR : 1 ≤ dims.length)
    (hd : ∀ d ∈ dims, 1 ≤ d) (c : TensorAxisCounters)
    (hreach : TensorAxisCounters.Reachable (TensorAxisCounters.construct dims) c) :
    (c.Axis = 0 → c.Increment = (false, { c with running := false }))
    ∧ (∀ a, c.Axis = a + 1 →
        a < dims.length - 1
        ∧ (c.Increment.1 = true ↔ c.indices.getD a 0 + 1 = dims.getD a 0)
        ∧ (c.indices.getD a 0 + 1 = dims.getD a 0 →
            c.Increment = (true, { c with axis := a, indices := c.indices.set a 0 })
            ∧ c.Increment.2.indices.getD a 0 = 0 ∧ c.Increment.2.Axis = a)
        ∧ (c.indices.getD a 0 + 1 ≠ dims.getD a 0 →
            c.Increment = (false, { c with axis := dims.length - 1,
                                            indices := c.indices.set a (c.indices.getD a 0 + 1) })
            ∧ c.Increment.2.indices.getD a 0 = c.indices.getD a 0 + 1
            ∧ c.Increment.2.Axis = dims.length - 1)) := by
  have _hR := hR
  have _hd := hd
  obtain ⟨hdims, hlen, hax⟩ := Reachable_invariant dims c hreach
  refine ⟨fun h0 => ?_, fun a ha => ?_⟩
  · have h0' : c.axis = 0 := h0
    simp [TensorAxisCounters.Increment, h0']
  · have ha' : c.axis = a + 1 := ha
    have hal : a < c.indices.length := by omega
    have hinc : c.Increment
        = if c.indices.getD a 0 + 1 ≠ dims.getD a 0 then
            (false, { c with axis := dims.length - 1,
                             indices := c.indices.set a (c.indices.getD a 0 + 1) })
          else (true, { c with axis := a, indices := c.indices.set a 0 }) := by
      simp only [TensorAxisCounters.Increment, ha', Nat.add_sub_cancel, Nat.succ_ne_zero,
        if_false]
      rw [getD_set_self _ _ _ hal, hdims, List.set_set, List.length_set, hlen]
    refine ⟨by omega, ?_, ?_, ?_⟩
    · rw [hinc]
      by_cases h : c.indices.getD a 0 + 1 = dims.getD a 0
      · rw [if_neg (not_not.mpr h)]
        exact ⟨fun _ => h, fun _ => rfl⟩
      · rw [if_pos h]
        exact ⟨fun h2 => Bool.noConfusion h2, fun h2 => absurd h2 h⟩
    · intro h
      rw [hinc, if_neg (not_not.mpr h)]
      exact ⟨rfl, getD_set_self _ _ _ hal, rfl⟩
    · intro h
      rw [hinc, if_pos h]
      exact ⟨rfl, getD_set_self _ _ _ hal, rfl⟩

/-- Witness for C21 at shape `(2,3,4)`, on the freshly constructed counters. -/
theorem Increment_carry_behaviour_witness :
    (TensorAxisCounters.construct [2, 3, 4]).Increment
      = (false, ⟨[2, 3, 4], true, 2, [0, 1]⟩) := by
  have h := (Increment_carry_behaviour [2, 3, 4] (by decide) (by decide)
    (TensorAxisCounters.construct [2, 3, 4]) TensorAxisCounters.Reachable.start).2 1 rfl
  exact (h.2.2.2 (by decide)).1

/-! ## The slice iterator stays inside the buffer -/

theorem copyRuns_eq_advance {T : Type} (data : Int → T) (n : Nat) :
    ∀ (it : SliceIterator) (output : List T), it.inner_counter = 0 → 1 ≤ it.inner_extent →
      SliceIterator.copyRuns data n it output
        = (output ++ (SliceIterator.advance (n * it.inner_extent.toNat) it).1.map data,
           (SliceIterator.advance (n * it.inner_extent.toNat) it).2) := by
  induction n with
  | zero =>
    intro it output _ _
    simp [SliceIterator.copyRuns, SliceIterator.advance]
  | succ n ih =>
    intro it output hc he
    obtain ⟨h1, h2, _⟩ := CopyInnermostAxis_eq_advance data it output hc he
    have hie : (it.CopyInnermostAxis data output).2.inner_extent = it.inner_extent := rfl
    simp only [SliceIterator.copyRuns]
    rw [ih _ _ h2 (by rw [hie]; exact he), hie, h1]
    rw [Nat.succ_mul, Nat.add_comm (n * it.inner_extent.toNat), advance_add]
    simp

theorem mem_tuples_getD (k extents : List Int) (hk : k ∈ tuples extents) :
    k.length = extents.length
    ∧ ∀ i, i < extents.length → 0 ≤ k.getD i 0 ∧ k.getD i 0 < extents.getD i 0 := by
  have h := forall₂_of_mem_tuples k extents hk
  refine ⟨h.length_eq, fun i hi => ?_⟩
  have hki : i < k.length := by rw [h.length_eq]; exact hi
  have := (List.forall₂_iff_get.mp h).2 i hki hi
  rwa [List.getD_eq_getElem _ _ hki, List.getD_eq_getElem _ _ hi]

theorem sliceOffset_in_buffer (dims starts extents k : List Int)
    (hs : starts.length = dims.length) (he : extents.length = dims.length)
    (hv : ∀ i, i < dims.length →
      0 ≤ starts.getD i 0 ∧ 1 ≤ extents.getD i 0
        ∧ starts.getD i 0 + extents.getD i 0 ≤ dims.getD i 0)
    (hk : k ∈ tuples extents) :
    0 ≤ sliceOffset dims starts k ∧ sliceOffset dims starts k < dims.prod := by
  obtain ⟨hkl, hkr⟩ := mem_tuples_getD k extents hk
  have h0 : ∀ d ∈ dims, 0 ≤ d :=
    forall_mem_of_forall_getD dims (fun d => 0 ≤ d) (fun i hi => by have := hv i hi; omega)
  have hz : (List.zipWith (fun s x => s + x) starts k).length = dims.length := by
    simp [hs, hkl, he]
  have hF : List.Forall₂ (fun i d => 0 ≤ i ∧ i < d)
      (List.zipWith (fun s x => s + x) starts k) dims := by
    apply forall₂_of_forall_getD _ _ hz
    intro i hi
    have hg : (List.zipWith (fun s x => s + x) starts k).getD i 0
        = starts.getD i 0 + k.getD i 0 := by
      rw [List.getD_eq_getElem _ _ (by rw [hz]; exact hi), List.getElem_zipWith,
        List.getD_eq_getElem _ _ (by omega), List.getD_eq_getElem _ _ (by omega)]
    rw [hg]
    have h1 := hv i hi
    have h2 := hkr i (by omega)
    omega
  obtain ⟨h1, h2, _⟩ := tuples_getElem?_dot dims _ h0 hF
  exact ⟨h1, h2⟩

theorem prod_toNat_dropLast (extents : List Int) (hne : extents ≠ [])
    (hpos : ∀ e ∈ extents, 1 ≤ e) :
    extents.prod.toNat
      = extents.dropLast.prod.toNat * (extents.getD (extents.length - 1) 0).toNat := by
  have hsplit : extents.dropLast ++ [extents.getD (extents.length - 1) 0] = extents :=
    List.dropLast_append_getLast? _ (by rw [getLast?_eq_getD extents hne]; rfl)
  have hP : 0 ≤ extents.dropLast.prod :=
    prod_nonneg_of_forall _
      (fun d hd => le_trans (by decide) (hpos d (List.mem_of_mem_dropLast hd)))
  have hl : 1 ≤ extents.getD (extents.length - 1) 0 := by
    apply hpos
    rw [List.getD_eq_getElem _ _ (by have := List.length_pos.mpr hne; omega)]
    exact List.getElem_mem _
  have hprod : extents.prod
      = extents.dropLast.prod * extents.getD (extents.length - 1) 0 := by
    conv_lhs => rw [← hsplit]
    simp
  obtain ⟨a, ha⟩ := Int.eq_ofNat_of_zero_le hP
  obtain ⟨b, hb⟩ := Int.eq_ofNat_of_zero_le (le_trans (by decide) hl)
  rw [hprod, ha, hb]
  have hab : (a : Int) * (b : Int) = ((a * b : Nat) : Int) := by push_cast; ring
  rw [hab, Int.toNat_ofNat, Int.toNat_ofNat, Int.toNat_ofNat]

/-- C23: for a tensor of rank `R ≥ 1` and starts/extents with `start_i ≥ 0`,
`extent_i ≥ 1` and `start_i + extent_i ≤ d_i`, a complete traversal reads `Π extent_i`
flat offsets and every one of them lies in `[0, Π d_i)`, both when it is made of
`Π extent_i` post-increments and when it is made of `Π_{i<R-1} extent_i` calls of
`CopyInnermostAxis` (run on the buffer whose element at offset `x` is `x`, so that the
elements written are the offsets read); the two traversals read the same offsets in the
same order. -/
theorem SliceIterator_reads_inside_buffer (dims starts extents : List Int)
    (hR : 1 ≤ dims.length) (hs : starts.length = dims.length)
    (he : extents.length = dims.length)
    (hv : ∀ i, i < dims.length →
      0 ≤ starts.getD i 0 ∧ 1 ≤ extents.getD i 0
        ∧ starts.getD i 0 + extents.getD i 0 ≤ dims.getD i 0) :
    ∃ it, SliceIterator.construct dims starts extents = some it
      ∧ (SliceIterator.advance extents.prod.toNat it).1.length = extents.prod.toNat
      ∧ (∀ off ∈ (SliceIterator.advance extents.prod.toNat it).1, 0 ≤ off ∧ off < dims.prod)
      ∧ (SliceIterator.copyRuns (fun x : Int => x) extents.dropLast.prod.toNat it []).1
          = (SliceIterator.advance extents.prod.toNat it).1
      ∧ (∀ off ∈ (SliceIterator.copyRuns (fun x : Int => x)
            extents.dropLast.prod.toNat it []).1, 0 ≤ off ∧ off < dims.prod) := by
  obtain ⟨skips, _, hc⟩ := SliceIterator_construct_eq_some dims starts extents hs he
  have hpos : ∀ e ∈ extents, 1 ≤ e :=
    forall_mem_of_forall_getD extents (fun e => 1 ≤ e) (fun i hi => (hv i (by omega)).2.1)
  have hne : extents ≠ [] := by
    intro h
    rw [h] at he
    simp at he
    omega
  have hadv := advance_from_construct dims starts extents _ hR hs he hpos hc
  have hin : ∀ off ∈ (SliceIterator.advance extents.prod.toNat
      { dims := dims, input := dot starts (TensorPitches dims), extents := extents,
        inner_counter := 0, inner_extent := extents.getD (dims.length - 1) 0,
        skips := skips, indices := List.replicate dims.length 0 }).1,
      0 ≤ off ∧ off < dims.prod := by
    intro off hoff
    rw [hadv] at hoff
    obtain ⟨k, hk, rfl⟩ := List.mem_map.mp hoff
    exact sliceOffset_in_buffer dims starts extents k hs he hv hk
  have hcopy := copyRuns_eq_advance (fun x : Int => x) extents.dropLast.prod.toNat
    { dims := dims, input := dot starts (TensorPitches dims), extents := extents,
      inner_counter := 0, inner_extent := extents.getD (dims.length - 1) 0,
      skips := skips, indices := List.replicate dims.length 0 } [] rfl
    (hv (dims.length - 1) (by omega)).2.1
  have hsplit := prod_toNat_dropLast extents hne hpos
  rw [he] at hsplit
  simp only [List.nil_append, List.map_id'] at hcopy
  rw [← hsplit] at hcopy
  refine ⟨_, hc, ?_, hin, ?_, ?_⟩
  · rw [hadv, List.length_map, tuples_length extents
      (fun e h => le_trans (by decide) (hpos e h))]
  · rw [hcopy]
  · rw [hcopy]
    exact hin

/-- Witness for C23 at shape `(2,3,4)`, starts `(1,1,1)`, extents `(1,2,2)`. -/
theorem SliceIterator_reads_inside_buffer_witness :
    ∃ it, SliceIterator.construct [2, 3, 4] [1, 1, 1] [1, 2, 2] = some it
      ∧ (SliceIterator.advance [(1 : Int), 2, 2].prod.toNat it).1.length
          = [(1 : Int), 2, 2].prod.toNat
      ∧ (∀ off ∈ (SliceIterator.advance [(1 : Int), 2, 2].prod.toNat it).1,
          0 ≤ off ∧ off < [(2 : Int), 3, 4].prod)
      ∧ (SliceIterator.copyRuns (fun x : Int => x) [(1 : Int), 2, 2].dropLast.prod.toNat it []).1
          = (SliceIterator.advance [(1 : Int), 2, 2].prod.toNat it).1
      ∧ (∀ off ∈ (SliceIterator.copyRuns (fun x : Int => x)
            [(1 : Int), 2, 2].dropLast.prod.toNat it []).1,
          0 ≤ off ∧ off < [(2 : Int), 3, 4].prod) :=
  SliceIterator_reads_inside_buffer [2, 3, 4] [1, 1, 1] [1, 2, 2] (by decide) (by decide)
    (by decide) (by decide)

end Lotus

namespace onnxruntime

/-! ## Unsqueeze: which axes lists are rejected -/

theorem axesLoop_inl_code (axes : List Int) :
    ∀ (out : List Int) (status : common.Status),
      UnsqueezeBase.axesLoop axes out = Sum.inl status →
      status.code = common.StatusCode.INVALID_ARGUMENT := by
  induction axes with
  | nil =>
    intro out status h
    simp [UnsqueezeBase.axesLoop] at h
  | cons a rest ih =>
    intro out status h
    simp only [UnsqueezeBase.axesLoop] at h
    split at h
    · rw [← Sum.inl.inj h]
    · split at h
      · rw [← Sum.inl.inj h]
      · exact ih _ _ h

theorem axesLoop_inr_of (axes : List Int) :
    ∀ out : List Int, (∀ a ∈ axes, toSizeT a < out.length ∧ out.getD (toSizeT a) 0 = 0) →
      (axes.map toSizeT).Nodup → ∃ out', UnsqueezeBase.axesLoop axes out = Sum.inr out' := by
  induction axes with
  | nil =>
    intro out _ _
    exact ⟨out, rfl⟩
  | cons a rest ih =>
    intro out hin hnd
    obtain ⟨hlt, hz⟩ := hin a (List.mem_cons_self _ _)
    rw [List.map_cons, List.nodup_cons] at hnd
    simp only [UnsqueezeBase.axesLoop]
    rw [if_neg (not_le.mpr hlt), if_neg (not_not.mpr hz)]
    apply ih _ _ hnd.2
    intro b hb
    obtain ⟨hblt, hbz⟩ := hin b (List.mem_cons_of_mem _ hb)
    refine ⟨by rw [List.length_set]; exact hblt, ?_⟩
    rw [getD_set_one _ _ _ hlt, if_neg, hbz]
    intro hab
    exact hnd.1 (hab ▸ List.mem_map_of_mem _ hb)

theorem toSizeT_lt_iff (a : Int) (n : Nat) (hn : n ≤ 2 ^ 63) (h1 : -2 ^ 63 ≤ a)
    (h2 : a < 2 ^ 63) : toSizeT a < n ↔ (0 ≤ a ∧ a < (n : Int)) := by
  have e64 : (2 : Int) ^ 64 = 18446744073709551616 := by norm_num
  have e63 : (2 : Int) ^ 63 = 9223372036854775808 := by norm_num
  have n63 : (2 : Nat) ^ 63 = 9223372036854775808 := by norm_num
  rw [toSizeT, e64]
  rw [e63] at h1 h2
  rw [n63] at hn
  omega

theorem toSizeT_inj (a b : Int) (ha : 0 ≤ a) (ha2 : a < 2 ^ 63) (hb : 0 ≤ b)
    (hb2 : b < 2 ^ 63) (h : toSizeT a = toSizeT b) : a = b := by
  have e64 : (2 : Int) ^ 64 = 18446744073709551616 := by norm_num
  have e63 : (2 : Int) ^ 63 = 9223372036854775808 := by norm_num
  rw [toSizeT, toSizeT, e64] at h
  rw [e63] at ha2 hb2
  omega

/-- C22: for an input shape of rank `R` and an axes list (of `int64_t` entries, the output
rank `R + |axes|` being at most `2^63`), `PrepareCompute` returns an `INVALID_ARGUMENT`
status without requesting the output exactly when some entry of `axes` lies outside
`[0, R + |axes|)`, negative entries included, or some value occurs more than once in
`axes`; for every other axes list it returns `OK` with the output requested. -/
theorem PrepareCompute_rejects_iff (axes dims : List Int)
    (hax : ∀ a ∈ axes, -2 ^ 63 ≤ a ∧ a < 2 ^ 63)
    (hsize : axes.length + dims.length ≤ 2 ^ 63) :
    ((∃ status, UnsqueezeBase.PrepareCompute axes (some dims) = some (status, none)
          ∧ status.code = common.StatusCode.INVALID_ARGUMENT)
      ↔ ((∃ a ∈ axes, a < 0 ∨ ((axes.length + dims.length : Nat) : Int) ≤ a) ∨ ¬ axes.Nodup))
    ∧ (¬ ((∃ a ∈ axes, a < 0 ∨ ((axes.length + dims.length : Nat) : Int) ≤ a) ∨ ¬ axes.Nodup) →
        ∃ o, UnsqueezeBase.PrepareCompute axes (some dims)
          = some (common.Status.OK, some o)) := by
  have hiff : ∀ a ∈ axes, (toSizeT a < axes.length + dims.length
      ↔ (0 ≤ a ∧ a < ((axes.length + dims.length : Nat) : Int))) :=
    fun a ha => toSizeT_lt_iff a _ hsize (hax a ha).1 (hax a ha).2
  cases hacc : UnsqueezeBase.axesLoop axes (List.replicate (axes.length + dims.length) 0) with
  | inl status =>
    have hres : UnsqueezeBase.PrepareCompute axes (some dims) = some (status, none) := by
      simp only [UnsqueezeBase.PrepareCompute, hacc]
    have hbad : (∃ a ∈ axes, a < 0 ∨ ((axes.length + dims.length : Nat) : Int) ≤ a)
        ∨ ¬ axes.Nodup := by
      by_contra hgood
      push_neg at hgood
      obtain ⟨hrange, hnd⟩ := hgood
      have hin : ∀ a ∈ axes,
          toSizeT a < (List.replicate (axes.length + dims.length) (0 : Int)).length
          ∧ (List.replicate (axes.length + dims.length) (0 : Int)).getD (toSizeT a) 0 = 0 := by
        intro a ha
        refine ⟨?_, getD_replicate_zero _ _⟩
        rw [List.length_replicate]
        exact (hiff a ha).mpr ⟨(hrange a ha).1, (hrange a ha).2⟩
      have hnd' : (axes.map toSizeT).Nodup :=
        List.Nodup.map_on (fun a ha b hb hab =>
          toSizeT_inj a b (hrange a ha).1 (hax a ha).2 (hrange b hb).1 (hax b hb).2 hab) hnd
      obtain ⟨out', hout'⟩ := axesLoop_inr_of axes _ hin hnd'
      rw [hacc] at hout'
      exact Sum.noConfusion hout'
    exact ⟨⟨fun _ => hbad, fun _ => ⟨status, hres, axesLoop_inl_code axes _ _ hacc⟩⟩,
      fun h => absurd hbad h⟩
  | inr marks =>
    obtain ⟨o, ho, _⟩ := PrepareCompute_of_axesLoop_inr axes dims marks hacc
    obtain ⟨_, k2, k3, _⟩ := axesLoop_inr axes _ _ hacc
    have hgood : ¬ ((∃ a ∈ axes, a < 0 ∨ ((axes.length + dims.length : Nat) : Int) ≤ a)
        ∨ ¬ axes.Nodup) := by
      rintro (⟨a, ha, hout⟩ | hnd)
      · have hlt := (k2 a ha).1
        rw [List.length_replicate] at hlt
        have := (hiff a ha).mp hlt
        omega
      · exact hnd (List.Nodup.of_map _ k3)
    refine ⟨⟨fun ⟨status, hst, _⟩ => ?_, fun h => absurd h hgood⟩, fun _ => ⟨o, ho⟩⟩
    rw [ho] at hst
    simp at hst

/-- Witness for C22: with input shape `(5, 7)` the axes list `(0, 0)` is rejected. -/
theorem PrepareCompute_rejects_iff_witness :
    ∃ status, UnsqueezeBase.PrepareCompute [0, 0] (some [5, 7]) = some (status, none)
      ∧ status.code = common.StatusCode.INVALID_ARGUMENT :=
  (PrepareCompute_rejects_iff [0, 0] [5, 7] (by decide) (by decide)).1.mpr
    (Or.inr (by decide))

/-! ## Unsqueeze: the fill loop and the element count -/

theorem fillLoop_rest (marks : List Int) :
    ∀ (begin o rest : List Int), UnsqueezeBase.fillLoop marks begin = some (o, rest) →
      rest = begin.drop (marks.count 0) ∧ marks.count 0 ≤ begin.length
      ∧ ((∀ m ∈ marks, m = 0 ∨ m = 1) → o.prod * rest.prod = begin.prod) := by
  induction marks with
  | nil =>
    intro begin o rest h
    simp only [UnsqueezeBase.fillLoop, Option.some.injEq, Prod.mk.injEq] at h
    obtain ⟨rfl, rfl⟩ := h
    simp
  | cons m marks ih =>
    intro begin o rest h
    simp only [UnsqueezeBase.fillLoop] at h
    by_cases hm : m = 0
    · rw [if_pos hm] at h
      cases begin with
      | nil => simp at h
      | cons d begin' =>
        simp only at h
        cases hrec : UnsqueezeBase.fillLoop marks begin' with
        | none => rw [hrec] at h; simp at h
        | some r =>
          rw [hrec] at h
          simp only [Option.some.injEq, Prod.mk.injEq] at h
          obtain ⟨rfl, rfl⟩ := h
          obtain ⟨h1, h2, h3⟩ := ih begin' r.1 r.2 hrec
          subst hm
          refine ⟨by simpa using h1, by simpa using h2, fun h01 => ?_⟩
          have := h3 (fun x hx => h01 x (List.mem_cons_of_mem _ hx))
          rw [List.prod_cons, List.prod_cons, mul_assoc, this]
    · rw [if_neg hm] at h
      cases hrec : UnsqueezeBase.fillLoop marks begin with
      | none => rw [hrec] at h; simp at h
      | some r =>
        rw [hrec] at h
        simp only [Option.some.injEq, Prod.mk.injEq] at h
        obtain ⟨rfl, rfl⟩ := h
        obtain ⟨h1, h2, h3⟩ := ih begin r.1 r.2 hrec
        have hc : (m :: marks).count 0 = marks.count 0 :=
          List.count_cons_of_ne (fun h0 => hm h0.symm) _
        refine ⟨by rw [hc]; exact h1, by rw [hc]; exact h2, fun h01 => ?_⟩
        have hm1 : m = 1 := (h01 m (List.mem_cons_self _ _)).resolve_left hm
        have := h3 (fun x hx => h01 x (List.mem_cons_of_mem _ hx))
        rw [List.prod_cons, hm1, one_mul, this]

theorem axesLoop_marks (axes dims marks : List Int)
    (hacc : UnsqueezeBase.axesLoop axes (List.replicate (axes.length + dims.length) 0)
      = Sum.inr marks) :
    marks.count 0 = dims.length ∧ ∀ m ∈ marks, m = 0 ∨ m = 1 := by
  obtain ⟨_, _, _, k4, k5⟩ := axesLoop_inr axes _ _ hacc
  refine ⟨?_, ?_⟩
  · rw [List.count_replicate_self] at k5
    omega
  · intro m hm
    obtain ⟨i, hi, rfl⟩ := List.mem_iff_getElem.mp hm
    have := k4 i
    rw [List.getD_eq_getElem _ _ hi, getD_replicate_zero] at this
    rw [this]
    split
    · exact Or.inr rfl
    · exact Or.inl rfl

/-- C24: whenever `PrepareCompute` accepts the axes list (it returns `OK` and requests the
output with shape `o`), the product of the output dimension sizes equals the product of
the input dimension sizes, so both shapes have the same `Size()`; in particular the
output has no element as soon as an input dimension size is `0`. -/
theorem PrepareCompute_keeps_element_count (axes dims o : List Int)
    (h : UnsqueezeBase.PrepareCompute axes (some dims) = some (common.Status.OK, some o)) :
    o.prod = dims.prod
    ∧ Lotus.TensorShape.Size o = Lotus.TensorShape.Size dims
    ∧ ((0 : Int) ∈ dims → Lotus.TensorShape.Size o = 0) := by
  have hprod : o.prod = dims.prod := by
    cases hacc : UnsqueezeBase.axesLoop axes
        (List.replicate (axes.length + dims.length) 0) with
    | inl status =>
      simp only [UnsqueezeBase.PrepareCompute, hacc] at h
      simp at h
    | inr marks =>
      obtain ⟨o', h1, h2, _⟩ := PrepareCompute_of_axesLoop_inr axes dims marks hacc
      rw [h] at h1
      have ho : o = o' := by simpa using h1
      subst ho
      have := (fillLoop_rest marks dims o [] h2).2.2 (axesLoop_marks axes dims marks hacc).2
      simpa using this
  exact ⟨hprod, hprod, fun hz => by
    rw [Lotus.TensorShape.Size, hprod]
    exact List.prod_eq_zero hz⟩

/-- Witness for C24 at input shape `(5, 0)` and axes `(0, 3)`. -/
theorem PrepareCompute_keeps_element_count_witness :
    [(1 : Int), 5, 0, 1].prod = [(5 : Int), 0].prod
    ∧ Lotus.TensorShape.Size [1, 5, 0, 1] = Lotus.TensorShape.Size [5, 0]
    ∧ ((0 : Int) ∈ [(5 : Int), 0] → Lotus.TensorShape.Size [1, 5, 0, 1] = 0) :=
  PrepareCompute_keeps_element_count [0, 3] [5, 0] [1, 5, 0, 1] (by decide)

/-- C25: whenever the validation loop over `axes_` has passed, leaving `marks` in
`output_dims`, the fill loop finds exactly `R` zero entries, one per input dimension; it
reads `*begin++` once for each of them and never at the end of the input dimensions, it
leaves `begin` at the end of the input dimensions, so that the assertion holds and
`PrepareCompute` returns `OK`.  This is so for every input shape: a dimension size `0`
that is written into `output_dims` is not looked at again, as for shape `(5, 0)` with
axes `(0, 3)`. -/
theorem fill_loop_reads_each_input_dim_once (axes dims marks : List Int)
    (hacc : UnsqueezeBase.axesLoop axes (List.replicate (axes.length + dims.length) 0)
      = Sum.inr marks) :
    marks.count 0 = dims.length
    ∧ (∀ begin o rest : List Int, UnsqueezeBase.fillLoop marks begin = some (o, rest) →
        rest = begin.drop (marks.count 0))
    ∧ (∃ o, UnsqueezeBase.fillLoop marks dims = some (o, [])
        ∧ UnsqueezeBase.PrepareCompute axes (some dims) = some (common.Status.OK, some o))
    ∧ UnsqueezeBase.axesLoop [0, 3] (List.replicate 4 0) = Sum.inr [1, 0, 0, 1]
    ∧ UnsqueezeBase.fillLoop [1, 0, 0, 1] [5, 0] = some ([1, 5, 0, 1], []) := by
  obtain ⟨o, h1, h2, _⟩ := PrepareCompute_of_axesLoop_inr axes dims marks hacc
  exact ⟨(axesLoop_marks axes dims marks hacc).1,
    fun begin o' rest h => (fillLoop_rest marks begin o' rest h).1,
    ⟨o, h2, h1⟩, by decide, by decide⟩

/-- Witness for C25 at input shape `(5, 0)` and axes `(0, 3)`. -/
theorem fill_loop_reads_each_input_dim_once_witness :
    [(1 : Int), 0, 0, 1].count 0 = [(5 : Int), 0].length
    ∧ ∃ o, UnsqueezeBase.fillLoop [1, 0, 0, 1] [5, 0] = some (o, [])
        ∧ UnsqueezeBase.PrepareCompute [0, 3] (some [5, 0])
            = some (common.Status.OK, some o) := by
  have h := fill_loop_reads_each_input_dim_once [0, 3] [5, 0] [1, 0, 0, 1] (by decide)
  exact ⟨h.1, h.2.2.1⟩

end onnxruntime
